import Mathlib

/-!
Shallow embedding of `src/algorithms/range_tree.cpp`.

The C++ file implements a fixed-capacity aggregation tree over
`MAX_LEAVES = 2^D` leaf positions, stored as a complete binary tree in an
array of `TREE_SIZE = 2^(D+1)` slots (slot 0 unused).  The source fixes
`const int D = 16`; here `D` is a parameter of every definition, so all
theorems below hold in particular for the source value `D = 16`, and the
concrete boundary scenario of the specification is obtained at `D = 3`.

Modelling decisions:
* the node array is a total function `Nat → Node`; C++ leaves slot 0 (and
  nothing else) default-initialised, which we model by an arbitrary
  `junk` node the constructor starts from;
* C++ `int` arithmetic is translated as `Nat` where the source value is
  always non-negative (`insert`, construction) and as `Int` in `sum`,
  whose starting index `upper_leaf_bound - 1 + MAX_LEAVES` genuinely
  relies on signed arithmetic when `upper_leaf_bound = 0`.  All divisions
  performed by the model are on non-negative values, where Lean `Int`
  division and C++ `int` division agree;
* each loop additionally records the trace of node-array accesses it
  performs (`Access.read i` / `Access.write i`), so that claims about
  which slots are touched, and about `sum` being a pure read, are
  statable.  The `.1` component of each loop is exactly the C++
  computation; the `.2` component is the access trace.
-/

namespace RangeTreeCpp

/-- One slot of the node array: `class Node { int level; int ni; int val; }`. -/
structure Node where
  level : Nat
  ni : Nat
  val : Int
deriving DecidableEq

/-- `MAX_LEAVES = 1 << D`. -/
def MAX_LEAVES (D : Nat) : Nat := 1 <<< D

/-- `TREE_SIZE = 1 << (D + 1)`. -/
def TREE_SIZE (D : Nat) : Nat := 1 <<< (D + 1)

/-- `int blevel() { return D - level; }` -/
def Node.blevel (D : Nat) (n : Node) : Nat := D - n.level

/-- `int leveli() { return ni - (1 << level); }` -/
def Node.leveli (n : Node) : Nat := n.ni - (1 <<< n.level)

/-- `int upper_li() { int leaf_coverage = 1 << blevel(); return (leveli() + 1) * leaf_coverage; }` -/
def Node.upper_li (D : Nat) (n : Node) : Nat := (n.leveli + 1) * (1 <<< n.blevel D)

/-- `int lower_li() { int leaf_coverage = 1 << blevel(); return (leveli()) * leaf_coverage; }` -/
def Node.lower_li (D : Nat) (n : Node) : Nat := n.leveli * (1 <<< n.blevel D)

/-- Fast-path constructor `Node(int d, int _ni) : level(d), ni(_ni), val(0)`. -/
def Node.ofLevelNi (d ni : Nat) : Node := ⟨d, ni, 0⟩

/-- The halving loop of the slow-path constructor `Node(int _ni)`:
`int k = _ni; while (k > 1) { level += 1; k >>= 1; }`. -/
def slowLevelGo (level k : Nat) : Nat :=
  if k > 1 then slowLevelGo (level + 1) (k >>> 1) else level
termination_by k
decreasing_by
  simp only [Nat.shiftRight_succ, Nat.shiftRight_zero]
  omega

/-- Slow-path constructor `Node(int _ni) : level(0), ni(_ni), val(0)` which
derives the level from the index alone by repeated halving. -/
def Node.ofNi (ni : Nat) : Node := ⟨slowLevelGo 0 ni, ni, 0⟩

/-- The tree: `class RangeTree { Node nodes[TREE_SIZE]; ... }`, with the
array modelled as a total function on slot indices. -/
structure RangeTree where
  nodes : Nat → Node

/-- Functional update of one slot of the node array. -/
def updateNodes (nodes : Nat → Node) (i : Nat) (nd : Node) : Nat → Node :=
  fun j => if j = i then nd else nodes j

/-- Inner construction loop: `for (int ni = start; ni < end; ni++) nodes[ni] = Node(d, ni);`. -/
def initLevelLoop (d : Nat) (nodes : Nat → Node) (ni stop : Nat) : Nat → Node :=
  if ni < stop then
    initLevelLoop d (updateNodes nodes ni (Node.ofLevelNi d ni)) (ni + 1) stop
  else nodes
termination_by stop - ni

/-- Outer construction loop:
`for (int d = 0; d <= D; d++) { int start = 1 << d; int end = 2 << d; ... }`. -/
def initLoop (D : Nat) (nodes : Nat → Node) (d : Nat) : Nat → Node :=
  if d ≤ D then initLoop D (initLevelLoop d nodes (1 <<< d) (2 <<< d)) (d + 1) else nodes
termination_by D + 1 - d

/-- The `RangeTree()` constructor, starting from an array whose every slot
holds the arbitrary default-initialised node `junk` (only slot 0 keeps it). -/
def RangeTree.init (D : Nat) (junk : Node) : RangeTree :=
  ⟨initLoop D (fun _ => junk) 0⟩

/-- `int node_i(int li) { return li + MAX_LEAVES; }` -/
def RangeTree.node_i (D li : Nat) : Nat := li + MAX_LEAVES D

/-- `int parent_i(int ni) { return (ni) / 2; }` -/
def RangeTree.parent_i (ni : Int) : Int := ni / 2

/-- A node-array access, for the instrumentation component of the loops. -/
inductive Access where
  | read : Nat → Access
  | write : Nat → Access
deriving DecidableEq

/-- The `insert` loop:
`while (ni > 0) { auto& node = nodes[ni]; node.val += val; ni >>= 1; }`.
First component: the updated array.  Second: the access trace (each
iteration reads and writes slot `ni`). -/
def insertLoop (nodes : Nat → Node) (ni : Nat) (v : Int) : (Nat → Node) × List Access :=
  if ni > 0 then
    let node := nodes ni
    let rest := insertLoop (updateNodes nodes ni ⟨node.level, node.ni, node.val + v⟩) (ni >>> 1) v
    (rest.1, Access.read ni :: Access.write ni :: rest.2)
  else (nodes, [])
termination_by ni
decreasing_by
  simp only [Nat.shiftRight_succ, Nat.shiftRight_zero]
  omega

/-- `void insert(int li, int val)`. -/
def RangeTree.insert (t : RangeTree) (D li : Nat) (v : Int) : RangeTree :=
  ⟨(insertLoop t.nodes (RangeTree.node_i D li) v).1⟩

/-- The access trace of one `insert(li, v)` call. -/
def RangeTree.insertAccesses (t : RangeTree) (D li : Nat) (v : Int) : List Access :=
  (insertLoop t.nodes (RangeTree.node_i D li) v).2

/-- `nodes[i]` for an index computed in `int` arithmetic (always applied to
non-negative indices by the code). -/
def RangeTree.get (t : RangeTree) (i : Int) : Node := t.nodes i.toNat

/-- The starting slot of `sum`: `int ni = upper_leaf_bound - 1 + MAX_LEAVES;`
(signed arithmetic: for `upper_leaf_bound = 0` this is `MAX_LEAVES - 1`). -/
def sumStart (D : Nat) (bound : Int) : Int := bound - 1 + (MAX_LEAVES D : Int)

/-- The `sum` loop.  Each iteration evaluates
`nodes[parenti].upper_li() <= upper_leaf_bound && ni > 1` (a read of slot
`parenti`); on climb it moves to the parent, otherwise it reads and adds
`nodes[ni].val` and either steps left (`ni -= 1`) or breaks when
`leveli() == 0`.  First component: the returned sum.  Second: the access
trace. -/
def sumLoop (D : Nat) (t : RangeTree) (bound ni s : Int) : Int × List Access :=
  if h : ni > 0 then
    let parenti := ni / 2
    if ((t.get parenti).upper_li D : Int) ≤ bound ∧ ni > 1 then
      let rest := sumLoop D t bound parenti s
      (rest.1, Access.read parenti.toNat :: rest.2)
    else
      let self := t.get ni
      if self.leveli > 0 then
        let rest := sumLoop D t bound (ni - 1) (s + self.val)
        (rest.1, Access.read parenti.toNat :: Access.read ni.toNat :: rest.2)
      else
        (s + self.val, [Access.read parenti.toNat, Access.read ni.toNat])
  else (s, [])
termination_by ni.toNat
decreasing_by
  · have h2 : ni > 1 := by
      rename_i hc
      exact hc.2
    omega
  · omega

/-- `int sum(int upper_leaf_bound)`. -/
def RangeTree.sum (t : RangeTree) (D : Nat) (bound : Int) : Int :=
  (sumLoop D t bound (sumStart D bound) 0).1

/-- The access trace of one `sum(bound)` call. -/
def RangeTree.sumAccesses (t : RangeTree) (D : Nat) (bound : Int) : List Access :=
  (sumLoop D t bound (sumStart D bound) 0).2

/-! ### Specification-side helper definitions (used to state the claims) -/

/-- Sum of the deltas of the recorded insert calls `(li, v)` whose leaf
index lies in the half-open interval `[a, b)`. -/
def coverSum (a b : Nat) : List (Nat × Int) → Int
  | [] => 0
  | p :: L => (if a ≤ p.1 ∧ p.1 < b then p.2 else 0) + coverSum a b L

/-- Sum of the deltas of the recorded insert calls `(li, v)` with `li < k`
(the specification's definition of the prefix aggregate). -/
def specSum (k : Nat) : List (Nat × Int) → Int
  | [] => 0
  | p :: L => (if p.1 < k then p.2 else 0) + specSum k L

/-- Replay a list of `insert` calls, in order, on a tree. -/
def applyInserts (D : Nat) (L : List (Nat × Int)) (t : RangeTree) : RangeTree :=
  L.foldl (fun t p => t.insert D p.1 p.2) t

/-- Sum of `f` over the half-open interval `[a, b)` of leaf indices. -/
def sumRange (f : Nat → Int) (a b : Nat) : Int :=
  if a < b then f a + sumRange f (a + 1) b else 0
termination_by b - a

/-- Point update of a per-leaf total function. -/
def pointUpd (f : Nat → Int) (li : Nat) (v : Int) : Nat → Int :=
  fun x => if x = li then f x + v else f x

/-- Per-leaf totals accumulated by a list of insert calls, on top of `f`. -/
def totalsFrom (f : Nat → Int) : List (Nat × Int) → (Nat → Int)
  | [] => f
  | p :: L => totalsFrom (pointUpd f p.1 p.2) L

/-- The mathematical level of slot `j`: `Nat.log2 j`, the unique `d` with
`2^d ≤ j < 2^(d+1)` for `j ≥ 1`. -/
def lvl (j : Nat) : Nat := Nat.log2 j

/-- The mathematical upper end of the leaf range covered by slot `j`. -/
def upperIdx (D j : Nat) : Nat := (j - 2 ^ lvl j + 1) * 2 ^ (D - lvl j)

/-- The mathematical lower end of the leaf range covered by slot `j`. -/
def lowerIdx (D j : Nat) : Nat := (j - 2 ^ lvl j) * 2 ^ (D - lvl j)

/-- Well-formedness of a tree state: every in-range slot `j` holds level
metadata `⟨Nat.log2 j, j⟩` and the accumulated value of the per-leaf total
function `f` over its coverage range; every other slot holds `junk`. -/
def WF (D : Nat) (junk : Node) (f : Nat → Int) (t : RangeTree) : Prop :=
  ∀ j : Nat, t.nodes j =
    if 1 ≤ j ∧ j < TREE_SIZE D then
      ⟨Nat.log2 j, j, sumRange f (lowerIdx D j) (upperIdx D j)⟩
    else junk

/-- The ancestor chain of slot `ni` (the slots visited by the insert loop):
`ni, ni/2, ni/4, ..., 1`. -/
def ancChain (ni : Nat) : List Nat :=
  if ni > 0 then ni :: ancChain (ni / 2) else []
termination_by ni

/-- A concrete stand-in for the default-initialised node in slot 0 (the
C++ global object has static storage, hence zero-initialised members). -/
def junk0 : Node := ⟨0, 0, 0⟩

end RangeTreeCpp

namespace RangeTreeCpp

/-! ### Basic arithmetic lemmas -/

theorem MAX_LEAVES_eq (D : Nat) : MAX_LEAVES D = 2 ^ D := by
  simp [MAX_LEAVES, Nat.shiftLeft_eq]

theorem TREE_SIZE_eq (D : Nat) : TREE_SIZE D = 2 ^ (D + 1) := by
  simp [TREE_SIZE, Nat.shiftLeft_eq]

theorem lvl_eq_of {d j : Nat} (h1 : 2 ^ d ≤ j) (h2 : j < 2 ^ (d + 1)) : lvl j = d := by
  unfold lvl
  rw [Nat.log2_eq_log_two]
  exact Nat.log_eq_of_pow_le_of_lt_pow h1 h2

theorem pow_lvl_le {j : Nat} (h : 1 ≤ j) : 2 ^ lvl j ≤ j :=
  Nat.log2_self_le (by omega)

theorem lt_pow_lvl (j : Nat) : j < 2 ^ (lvl j + 1) :=
  Nat.lt_log2_self

theorem lvl_le {D j : Nat} (h1 : 1 ≤ j) (h2 : j < 2 ^ (D + 1)) : lvl j ≤ D := by
  by_contra hgt
  have hDl : D + 1 ≤ lvl j := by omega
  have hpow : 2 ^ (D + 1) ≤ 2 ^ lvl j := Nat.pow_le_pow_right (by omega) hDl
  have hle := pow_lvl_le h1
  omega

theorem lvl_pos {j : Nat} (h : 2 ≤ j) : 1 ≤ lvl j := by
  by_contra hz
  have h0 : lvl j = 0 := by omega
  have := lt_pow_lvl j
  rw [h0] at this
  norm_num at this
  omega

theorem lvl_decomp {d e : Nat} (he : e < 2 ^ d) : lvl (2 ^ d + e) = d := by
  apply lvl_eq_of (by omega)
  have : 2 ^ (d + 1) = 2 ^ d * 2 := pow_succ 2 d
  omega

theorem decomp {j : Nat} (h : 1 ≤ j) : 2 ^ lvl j + (j - 2 ^ lvl j) = j ∧ j - 2 ^ lvl j < 2 ^ lvl j := by
  have h1 := pow_lvl_le h
  have h2 := lt_pow_lvl j
  have h3 : 2 ^ (lvl j + 1) = 2 ^ lvl j * 2 := pow_succ 2 (lvl j)
  omega

theorem upperIdx_decomp {d e : Nat} (D : Nat) (he : e < 2 ^ d) :
    upperIdx D (2 ^ d + e) = (e + 1) * 2 ^ (D - d) := by
  unfold upperIdx
  rw [lvl_decomp he]
  congr 2
  omega

theorem lowerIdx_decomp {d e : Nat} (D : Nat) (he : e < 2 ^ d) :
    lowerIdx D (2 ^ d + e) = e * 2 ^ (D - d) := by
  unfold lowerIdx
  rw [lvl_decomp he]
  congr 2
  omega

theorem upperIdx_pos (D j : Nat) : 1 ≤ upperIdx D j := by
  unfold upperIdx
  have h1 : 1 ≤ j - 2 ^ lvl j + 1 := by omega
  have h2 : 1 ≤ 2 ^ (D - lvl j) := Nat.one_le_two_pow
  exact Nat.mul_le_mul h1 h2

theorem lowerIdx_le_upperIdx (D j : Nat) : lowerIdx D j ≤ upperIdx D j := by
  unfold lowerIdx upperIdx
  exact Nat.mul_le_mul_right _ (by omega)

/-! ### Lemmas on the specification-side sums -/

theorem sumRange_empty (f : Nat → Int) {a b : Nat} (h : b ≤ a) : sumRange f a b = 0 := by
  rw [sumRange]
  simp [Nat.not_lt.mpr h]

theorem sumRange_step (f : Nat → Int) {a b : Nat} (h : a < b) :
    sumRange f a b = f a + sumRange f (a + 1) b := by
  rw [sumRange]
  simp [h]

theorem sumRange_zero_fn (a b : Nat) : sumRange (fun _ => 0) a b = 0 := by
  rcases Nat.lt_or_ge a b with h | h
  · rw [sumRange_step _ h, sumRange_zero_fn (a + 1) b]
    norm_num
  · exact sumRange_empty _ h
termination_by b - a

theorem sumRange_split (f : Nat → Int) {a m b : Nat} (h1 : a ≤ m) (h2 : m ≤ b) :
    sumRange f a b = sumRange f a m + sumRange f m b := by
  rcases Nat.eq_or_lt_of_le h1 with rfl | h
  · rw [sumRange_empty f (Nat.le_refl a)]
    ring
  · rw [sumRange_step f (by omega), sumRange_step f h,
      sumRange_split f (show a + 1 ≤ m by omega) h2]
    ring
termination_by m - a

theorem sumRange_pointUpd (f : Nat → Int) (li : Nat) (v : Int) (a b : Nat) :
    sumRange (pointUpd f li v) a b = sumRange f a b + if a ≤ li ∧ li < b then v else 0 := by
  rcases Nat.lt_or_ge a b with h | h
  · rw [sumRange_step _ h, sumRange_step f h, sumRange_pointUpd f li v (a + 1) b]
    unfold pointUpd
    by_cases heq : a = li
    · subst heq
      simp only [eq_self_iff_true, if_true]
      have hn1 : ¬(a + 1 ≤ a ∧ a < b) := by omega
      rw [if_neg hn1, if_pos (show a ≤ a ∧ a < b by omega)]
      ring
    · simp only [heq, if_false]
      by_cases hin : a + 1 ≤ li ∧ li < b
      · rw [if_pos hin, if_pos (show a ≤ li ∧ li < b by omega)]
        ring
      · have hn2 : ¬(a ≤ li ∧ li < b) := by omega
        rw [if_neg hin, if_neg hn2]
        ring
  · rw [sumRange_empty _ h, sumRange_empty f h]
    have : ¬(a ≤ li ∧ li < b) := by omega
    rw [if_neg this]
    ring
termination_by b - a

theorem sumRange_totalsFrom (L : List (Nat × Int)) :
    ∀ (f : Nat → Int) (a b : Nat),
      sumRange (totalsFrom f L) a b = sumRange f a b + coverSum a b L := by
  induction L with
  | nil =>
    intro f a b
    simp [totalsFrom, coverSum]
  | cons p L ih =>
    intro f a b
    rw [totalsFrom, ih (pointUpd f p.1 p.2) a b, sumRange_pointUpd, coverSum]
    ring

theorem coverSum_from_zero (k : Nat) (L : List (Nat × Int)) : coverSum 0 k L = specSum k L := by
  induction L with
  | nil => rfl
  | cons p L ih =>
    rw [coverSum, specSum, ih]
    congr 1
    by_cases h : p.1 < k
    · rw [if_pos ⟨Nat.zero_le _, h⟩, if_pos h]
    · rw [if_neg (by omega), if_neg h]

theorem specSum_total (k : Nat) (L : List (Nat × Int)) (h : ∀ p ∈ L, p.1 < k) :
    specSum k L = (L.map Prod.snd).sum := by
  induction L with
  | nil => rfl
  | cons p L ih =>
    rw [specSum, List.map_cons, List.sum_cons,
      ih (fun q hq => h q (List.mem_cons_of_mem p hq)),
      if_pos (h p (List.mem_cons_self p L))]

end RangeTreeCpp

namespace RangeTreeCpp

/-! ### Characterisation of construction -/

theorem initLevelLoop_apply (d : Nat) (nodes : Nat → Node) (ni stop j : Nat) :
    initLevelLoop d nodes ni stop j =
      if ni ≤ j ∧ j < stop then Node.ofLevelNi d j else nodes j := by
  rw [initLevelLoop]
  by_cases h : ni < stop
  · rw [if_pos h, initLevelLoop_apply d _ (ni + 1) stop j]
    unfold updateNodes
    by_cases hj : ni + 1 ≤ j ∧ j < stop
    · rw [if_pos hj, if_pos (show ni ≤ j ∧ j < stop by omega)]
    · rw [if_neg hj]
      by_cases hji : j = ni
      · rw [if_pos hji, if_pos (show ni ≤ j ∧ j < stop by omega)]
        rw [hji]
      · rw [if_neg hji, if_neg (show ¬(ni ≤ j ∧ j < stop) by omega)]
  · rw [if_neg h, if_neg (show ¬(ni ≤ j ∧ j < stop) by omega)]
termination_by stop - ni

theorem initLoop_apply (D : Nat) (nodes : Nat → Node) (d j : Nat) :
    initLoop D nodes d j =
      if 2 ^ d ≤ j ∧ j < 2 ^ (D + 1) then Node.ofLevelNi (lvl j) j else nodes j := by
  rw [initLoop]
  by_cases h : d ≤ D
  · rw [if_pos h, initLoop_apply D _ (d + 1) j, initLevelLoop_apply]
    have hs1 : (1 <<< d : Nat) = 2 ^ d := by simp [Nat.shiftLeft_eq]
    have hs2 : (2 <<< d : Nat) = 2 ^ (d + 1) := by
      rw [Nat.shiftLeft_eq, pow_succ]
      ring
    rw [hs1, hs2]
    have hpow : 2 ^ (d + 1) = 2 ^ d * 2 := pow_succ 2 d
    by_cases hex : 2 ^ (d + 1) ≤ j ∧ j < 2 ^ (D + 1)
    · rw [if_pos hex, if_pos (show 2 ^ d ≤ j ∧ j < 2 ^ (D + 1) by omega)]
    · rw [if_neg hex]
      by_cases hin : 2 ^ d ≤ j ∧ j < 2 ^ (d + 1)
      · have hl : lvl j = d := lvl_eq_of hin.1 hin.2
        have hDd : 2 ^ (d + 1) ≤ 2 ^ (D + 1) := Nat.pow_le_pow_right (by omega) (by omega)
        rw [if_pos hin, if_pos (show 2 ^ d ≤ j ∧ j < 2 ^ (D + 1) by omega), hl]
      · rw [if_neg hin]
        apply (if_neg _).symm
        rintro ⟨hd1, hd2⟩
        exact hex ⟨by omega, hd2⟩
  · rw [if_neg h]
    apply (if_neg _).symm
    rintro ⟨hd1, hd2⟩
    have : 2 ^ (D + 1) ≤ 2 ^ d := Nat.pow_le_pow_right (by omega) (by omega)
    omega
termination_by D + 1 - d

/-! ### Node methods on well-formed nodes -/

theorem wfNode_leveli (j : Nat) (v : Int) :
    Node.leveli ⟨Nat.log2 j, j, v⟩ = j - 2 ^ lvl j := by
  simp [Node.leveli, Nat.shiftLeft_eq, lvl]

theorem wfNode_upper_li (D j : Nat) (v : Int) :
    Node.upper_li D ⟨Nat.log2 j, j, v⟩ = upperIdx D j := by
  simp [Node.upper_li, Node.leveli, Node.blevel, Nat.shiftLeft_eq, upperIdx, lvl]

theorem wfNode_lower_li (D j : Nat) (v : Int) :
    Node.lower_li D ⟨Nat.log2 j, j, v⟩ = lowerIdx D j := by
  simp [Node.lower_li, Node.leveli, Node.blevel, Nat.shiftLeft_eq, lowerIdx, lvl]

theorem init_WF (D : Nat) (junk : Node) : WF D junk (fun _ => 0) (RangeTree.init D junk) := by
  intro j
  show initLoop D (fun _ => junk) 0 j = _
  rw [initLoop_apply]
  have hip : (2 : Nat) ^ 0 = 1 := by norm_num
  by_cases h : 1 ≤ j ∧ j < TREE_SIZE D
  · have hts := h.2
    rw [TREE_SIZE_eq] at hts
    rw [if_pos (show 2 ^ 0 ≤ j ∧ j < 2 ^ (D + 1) by omega), if_pos h, sumRange_zero_fn]
    rfl
  · rw [TREE_SIZE_eq] at h
    rw [if_neg (show ¬(2 ^ 0 ≤ j ∧ j < 2 ^ (D + 1)) by omega), if_neg (by rw [TREE_SIZE_eq]; omega)]

end RangeTreeCpp

namespace RangeTreeCpp

/-! ### The ancestor chain and the insert loop -/

theorem ancChain_zero : ancChain 0 = [] := by
  rw [ancChain]
  norm_num

theorem ancChain_succ {ni : Nat} (h : 0 < ni) : ancChain ni = ni :: ancChain (ni / 2) := by
  rw [ancChain, if_pos h]

theorem mem_ancChain_bounds : ∀ {ni j : Nat}, j ∈ ancChain ni → 1 ≤ j ∧ j ≤ ni := by
  intro ni j hm
  rcases Nat.eq_zero_or_pos ni with rfl | hpos
  · rw [ancChain_zero] at hm
    exact absurd hm (List.not_mem_nil j)
  · rw [ancChain_succ hpos] at hm
    rcases List.mem_cons.mp hm with rfl | hm2
    · omega
    · have := mem_ancChain_bounds hm2
      omega
termination_by ni => ni
decreasing_by
  have : ni / 2 < ni := Nat.div_lt_self hpos (by omega)
  omega

theorem mem_ancChain_iff (ni j : Nat) : j ∈ ancChain ni ↔ 1 ≤ j ∧ ∃ k, j = ni / 2 ^ k := by
  rcases Nat.eq_zero_or_pos ni with rfl | hpos
  · rw [ancChain_zero]
    simp only [List.not_mem_nil, false_iff]
    rintro ⟨h1, k, hk⟩
    rw [Nat.zero_div] at hk
    omega
  · rw [ancChain_succ hpos, List.mem_cons, mem_ancChain_iff (ni / 2) j]
    constructor
    · rintro (rfl | ⟨h1, k, hk⟩)
      · exact ⟨hpos, 0, by norm_num⟩
      · refine ⟨h1, k + 1, ?_⟩
        rw [hk, Nat.div_div_eq_div_mul, ← pow_succ']
    · rintro ⟨h1, k, hk⟩
      rcases k with _ | k
      · left
        rw [hk]
        norm_num
      · right
        refine ⟨h1, k, ?_⟩
        rw [hk, Nat.div_div_eq_div_mul, ← pow_succ']
termination_by ni
decreasing_by
  have : ni / 2 < ni := Nat.div_lt_self hpos (by omega)
  omega

theorem shiftRight_one_eq (n : Nat) : n >>> 1 = n / 2 := by
  simp [Nat.shiftRight_succ, Nat.shiftRight_zero]

theorem insertLoop_fst_apply (v : Int) :
    ∀ (ni : Nat) (nodes : Nat → Node) (j : Nat),
      (insertLoop nodes ni v).1 j =
        if j ∈ ancChain ni then ⟨(nodes j).level, (nodes j).ni, (nodes j).val + v⟩
        else nodes j := by
  intro ni nodes j
  rcases Nat.eq_zero_or_pos ni with rfl | hpos
  · rw [insertLoop, ancChain_zero]
    norm_num
  · rw [insertLoop, ancChain_succ hpos]
    simp only [hpos, if_pos, gt_iff_lt]
    rw [shiftRight_one_eq, insertLoop_fst_apply v (ni / 2) _ j]
    by_cases hm : j ∈ ancChain (ni / 2)
    · have hb := mem_ancChain_bounds hm
      have hlt : ni / 2 < ni := Nat.div_lt_self hpos (by omega)
      have hne : j ≠ ni := by omega
      rw [if_pos hm, if_pos (List.mem_cons.mpr (Or.inr hm))]
      unfold updateNodes
      rw [if_neg hne]
    · rw [if_neg hm]
      by_cases hji : j = ni
      · rw [if_pos (List.mem_cons.mpr (Or.inl hji))]
        unfold updateNodes
        rw [if_pos hji, hji]
      · rw [if_neg (fun hc => (List.mem_cons.mp hc).elim hji hm)]
        unfold updateNodes
        rw [if_neg hji]
termination_by ni => ni
decreasing_by
  have : ni / 2 < ni := Nat.div_lt_self hpos (by omega)
  omega

theorem mem_insertLoop_snd (v : Int) :
    ∀ (ni : Nat) (nodes : Nat → Node) (a : Access),
      a ∈ (insertLoop nodes ni v).2 ↔
        ∃ i, i ∈ ancChain ni ∧ (a = Access.read i ∨ a = Access.write i) := by
  intro ni nodes a
  rcases Nat.eq_zero_or_pos ni with rfl | hpos
  · rw [insertLoop, ancChain_zero]
    norm_num
  · rw [insertLoop, if_pos hpos, ancChain_succ hpos]
    simp only [List.mem_cons]
    rw [shiftRight_one_eq, mem_insertLoop_snd v (ni / 2) _ a]
    constructor
    · rintro (rfl | rfl | ⟨i, hi, hai⟩)
      · exact ⟨ni, Or.inl rfl, Or.inl rfl⟩
      · exact ⟨ni, Or.inl rfl, Or.inr rfl⟩
      · exact ⟨i, Or.inr hi, hai⟩
    · rintro ⟨i, (rfl | hi), (rfl | rfl)⟩
      · exact Or.inl rfl
      · exact Or.inr (Or.inl rfl)
      · exact Or.inr (Or.inr ⟨i, hi, Or.inl rfl⟩)
      · exact Or.inr (Or.inr ⟨i, hi, Or.inr rfl⟩)
termination_by ni => ni
decreasing_by
  have : ni / 2 < ni := Nat.div_lt_self hpos (by omega)
  omega

/-! ### Ancestors and coverage -/

theorem div_pow_mem {D x k : Nat} (h1 : 2 ^ D ≤ x) (h2 : x < 2 ^ (D + 1)) (hk : k ≤ D) :
    2 ^ (D - k) ≤ x / 2 ^ k ∧ x / 2 ^ k < 2 ^ (D - k + 1) := by
  have hkpos : 0 < 2 ^ k := Nat.pos_pow_of_pos k (by omega)
  constructor
  · rw [Nat.le_div_iff_mul_le hkpos, ← pow_add]
    have : D - k + k = D := by omega
    rw [this]
    exact h1
  · rw [Nat.div_lt_iff_lt_mul hkpos, ← pow_add]
    have : D - k + 1 + k = D + 1 := by omega
    rw [this]
    exact h2

theorem node_i_eq (D li : Nat) : RangeTree.node_i D li = li + 2 ^ D := by
  rw [RangeTree.node_i, MAX_LEAVES_eq]

theorem mem_ancChain_leaf_iff (D li j : Nat) (hli : li < 2 ^ D) (hj1 : 1 ≤ j)
    (hj2 : j < 2 ^ (D + 1)) :
    j ∈ ancChain (li + 2 ^ D) ↔ lowerIdx D j ≤ li ∧ li < upperIdx D j := by
  have hdD : lvl j ≤ D := lvl_le hj1 hj2
  obtain ⟨hjdec, helt⟩ := decomp hj1
  have hcpos : 0 < 2 ^ (D - lvl j) := Nat.pos_pow_of_pos _ (by omega)
  have hx1 : 2 ^ D ≤ li + 2 ^ D := by omega
  have hx2 : li + 2 ^ D < 2 ^ (D + 1) := by
    have : 2 ^ (D + 1) = 2 ^ D * 2 := pow_succ 2 D
    omega
  have hsplit : (li + 2 ^ D) / 2 ^ (D - lvl j) = li / 2 ^ (D - lvl j) + 2 ^ lvl j := by
    have hDeq : 2 ^ D = 2 ^ (D - lvl j) * 2 ^ lvl j := by
      rw [← pow_add]
      congr 1
      omega
    rw [hDeq, Nat.add_mul_div_left _ _ hcpos]
  rw [mem_ancChain_iff]
  constructor
  · rintro ⟨_, k, hk⟩
    have hkD : k ≤ D := by
      by_contra hgt
      have hz : (li + 2 ^ D) / 2 ^ k = 0 := by
        apply Nat.div_eq_of_lt
        calc li + 2 ^ D < 2 ^ (D + 1) := hx2
          _ ≤ 2 ^ k := Nat.pow_le_pow_right (by omega) (by omega)
      omega
    have hb := div_pow_mem hx1 hx2 hkD
    rw [← hk] at hb
    have hlv : lvl j = D - k := lvl_eq_of hb.1 hb.2
    have hkd : k = D - lvl j := by omega
    rw [hkd] at hk
    rw [hsplit] at hk
    have he2 : j - 2 ^ lvl j = li / 2 ^ (D - lvl j) := by omega
    constructor
    · rw [← hjdec, lowerIdx_decomp D helt, he2]
      exact Nat.div_mul_le_self li _
    · rw [← hjdec, upperIdx_decomp D helt, he2]
      rw [← Nat.div_lt_iff_lt_mul hcpos]
      omega
  · rintro ⟨hlo, hhi⟩
    refine ⟨hj1, D - lvl j, ?_⟩
    rw [← hjdec] at hlo hhi
    rw [lowerIdx_decomp D helt] at hlo
    rw [upperIdx_decomp D helt] at hhi
    have he2 : li / 2 ^ (D - lvl j) = j - 2 ^ lvl j := by
      apply Nat.le_antisymm
      · have := (Nat.div_lt_iff_lt_mul hcpos).mpr hhi
        omega
      · exact (Nat.le_div_iff_mul_le hcpos).mpr hlo
    rw [hsplit, he2]
    omega

/-! ### WF preservation by insert -/

theorem insert_WF (D : Nat) (junk : Node) (f : Nat → Int) (t : RangeTree) (hWF : WF D junk f t)
    (li : Nat) (hli : li < MAX_LEAVES D) (v : Int) :
    WF D junk (pointUpd f li v) (t.insert D li v) := by
  intro j
  show (insertLoop t.nodes (RangeTree.node_i D li) v).1 j = _
  rw [insertLoop_fst_apply, node_i_eq]
  rw [MAX_LEAVES_eq] at hli
  by_cases hr : 1 ≤ j ∧ j < TREE_SIZE D
  · have hj2 : j < 2 ^ (D + 1) := by
      have := hr.2
      rw [TREE_SIZE_eq] at this
      exact this
    have hcov := mem_ancChain_leaf_iff D li j hli hr.1 hj2
    by_cases hmem : j ∈ ancChain (li + 2 ^ D)
    · rw [if_pos hmem, hWF j, if_pos hr, if_pos hr, sumRange_pointUpd, if_pos (hcov.mp hmem)]
    · rw [if_neg hmem, hWF j, if_pos hr, if_pos hr, sumRange_pointUpd,
        if_neg (fun hc => hmem (hcov.mpr hc))]
      norm_num
  · have hnm : j ∉ ancChain (li + 2 ^ D) := by
      intro hm
      have hb := mem_ancChain_bounds hm
      have hp : 2 ^ (D + 1) = 2 ^ D * 2 := pow_succ 2 D
      rw [TREE_SIZE_eq] at hr
      omega
    rw [if_neg hnm, hWF j, if_neg hr, if_neg hr]

theorem applyInserts_WF (D : Nat) (junk : Node) (L : List (Nat × Int)) :
    ∀ (f : Nat → Int) (t : RangeTree), WF D junk f t → (∀ p ∈ L, p.1 < MAX_LEAVES D) →
      WF D junk (totalsFrom f L) (applyInserts D L t) := by
  induction L with
  | nil =>
    intro f t h _
    exact h
  | cons p L ih =>
    intro f t h hL
    have hstep : applyInserts D (p :: L) t = applyInserts D L (t.insert D p.1 p.2) := rfl
    rw [totalsFrom, hstep]
    exact ih (pointUpd f p.1 p.2) _
      (insert_WF D junk f t h p.1 (hL p (List.mem_cons_self p L)) p.2)
      (fun q hq => hL q (List.mem_cons_of_mem p hq))

end RangeTreeCpp

namespace RangeTreeCpp

/-! ### Parent and sibling index arithmetic -/

theorem half_decomp {d e : Nat} (hd : 1 ≤ d) (he : e < 2 ^ d) :
    (2 ^ d + e) / 2 = 2 ^ (d - 1) + e / 2 ∧ e / 2 < 2 ^ (d - 1) := by
  have hp : 2 ^ d = 2 ^ (d - 1) * 2 := by
    rw [← pow_succ]
    congr 1
    omega
  constructor
  · have : 2 ^ d + e = e + 2 * 2 ^ (d - 1) := by omega
    rw [this, Nat.add_mul_div_left e _ (by omega : 0 < 2)]
    omega
  · omega

theorem upperIdx_parent_odd (D : Nat) {d f : Nat} (hd : 1 ≤ d) (hdD : d ≤ D)
    (hf : 2 * f + 1 < 2 ^ d) :
    upperIdx D ((2 ^ d + (2 * f + 1)) / 2) = upperIdx D (2 ^ d + (2 * f + 1)) := by
  obtain ⟨hq, hlt⟩ := half_decomp hd hf
  have hfe : (2 * f + 1) / 2 = f := by omega
  rw [hq, hfe]
  rw [upperIdx_decomp D (by omega : f < 2 ^ (d - 1)), upperIdx_decomp D hf]
  have hde : D - (d - 1) = (D - d) + 1 := by omega
  rw [hde, pow_succ]
  ring

theorem upperIdx_parent_even (D : Nat) {d f : Nat} (hd : 1 ≤ d) (hdD : d ≤ D)
    (hf : 2 * f < 2 ^ d) :
    upperIdx D ((2 ^ d + 2 * f) / 2) = upperIdx D (2 ^ d + 2 * f) + 2 ^ (D - d) := by
  obtain ⟨hq, hlt⟩ := half_decomp hd hf
  have hfe : (2 * f) / 2 = f := by omega
  rw [hq, hfe]
  rw [upperIdx_decomp D (by omega : f < 2 ^ (d - 1)), upperIdx_decomp D hf]
  have hde : D - (d - 1) = (D - d) + 1 := by omega
  rw [hde, pow_succ]
  ring

theorem cov_half {d : Nat} (D : Nat) (hd : 1 ≤ d) (hdD : d ≤ D) {e : Nat} (he : e < 2 ^ d) :
    2 ^ (D - lvl ((2 ^ d + e) / 2)) = 2 * 2 ^ (D - d) := by
  obtain ⟨hq, hlt⟩ := half_decomp hd he
  rw [hq, lvl_decomp hlt]
  have hde : D - (d - 1) = (D - d) + 1 := by omega
  rw [hde, pow_succ]
  ring

/-! ### Step lemmas for the sum loop -/

theorem natCast_div_two (n : Nat) : ((n : Int)) / 2 = ((n / 2 : Nat) : Int) := by
  rw [Int.ofNat_ediv]
  norm_num

theorem get_natCast (t : RangeTree) (m : Nat) : t.get (m : Int) = t.nodes m := by
  simp [RangeTree.get]

theorem sumLoop_exit (D : Nat) (t : RangeTree) (bound ni s : Int) (hpos : ¬ni > 0) :
    sumLoop D t bound ni s = (s, []) := by
  rw [sumLoop, dif_neg hpos]

theorem sumLoop_climb (D : Nat) (t : RangeTree) (bound ni s : Int) (hpos : ni > 0)
    (hc : ((t.get (ni / 2)).upper_li D : Int) ≤ bound ∧ ni > 1) :
    sumLoop D t bound ni s = ((sumLoop D t bound (ni / 2) s).1,
      Access.read (ni / 2).toNat :: (sumLoop D t bound (ni / 2) s).2) := by
  rw [sumLoop, dif_pos hpos]
  simp only [if_pos hc]

theorem sumLoop_add_step (D : Nat) (t : RangeTree) (bound ni s : Int) (hpos : ni > 0)
    (hc : ¬(((t.get (ni / 2)).upper_li D : Int) ≤ bound ∧ ni > 1))
    (hl : (t.get ni).leveli > 0) :
    sumLoop D t bound ni s = ((sumLoop D t bound (ni - 1) (s + (t.get ni).val)).1,
      Access.read (ni / 2).toNat :: Access.read ni.toNat ::
        (sumLoop D t bound (ni - 1) (s + (t.get ni).val)).2) := by
  rw [sumLoop, dif_pos hpos]
  simp only [if_neg hc, if_pos hl]

theorem sumLoop_add_break (D : Nat) (t : RangeTree) (bound ni s : Int) (hpos : ni > 0)
    (hc : ¬(((t.get (ni / 2)).upper_li D : Int) ≤ bound ∧ ni > 1))
    (hl : ¬(t.get ni).leveli > 0) :
    sumLoop D t bound ni s = (s + (t.get ni).val,
      [Access.read (ni / 2).toNat, Access.read ni.toNat]) := by
  rw [sumLoop, dif_pos hpos]
  simp only [if_neg hc, if_neg hl]

end RangeTreeCpp

namespace RangeTreeCpp

theorem lvl_one : lvl 1 = 0 := lvl_eq_of (by norm_num) (by norm_num)

theorem wf_get_upper (D : Nat) (junk : Node) (f : Nat → Int) (t : RangeTree) (hWF : WF D junk f t)
    {m : Nat} (h1 : 1 ≤ m) (h2 : m < 2 ^ (D + 1)) :
    (t.get (m : Int)).upper_li D = upperIdx D m := by
  rw [get_natCast, hWF m, if_pos ⟨h1, by rw [TREE_SIZE_eq]; exact h2⟩, wfNode_upper_li]

theorem wf_get_leveli (D : Nat) (junk : Node) (f : Nat → Int) (t : RangeTree) (hWF : WF D junk f t)
    {m : Nat} (h1 : 1 ≤ m) (h2 : m < 2 ^ (D + 1)) :
    (t.get (m : Int)).leveli = m - 2 ^ lvl m := by
  rw [get_natCast, hWF m, if_pos ⟨h1, by rw [TREE_SIZE_eq]; exact h2⟩, wfNode_leveli]

theorem wf_get_val (D : Nat) (junk : Node) (f : Nat → Int) (t : RangeTree) (hWF : WF D junk f t)
    {m : Nat} (h1 : 1 ≤ m) (h2 : m < 2 ^ (D + 1)) :
    (t.get (m : Int)).val = sumRange f (lowerIdx D m) (upperIdx D m) := by
  rw [get_natCast, hWF m, if_pos ⟨h1, by rw [TREE_SIZE_eq]; exact h2⟩]

/-- Functional correctness of the climb-and-step-left loop on a well-formed
tree: starting from a slot `n` whose coverage ends at or before `bound` and
such that `bound` falls short of the next same-level coverage boundary, the
loop returns `s` plus the aggregate of all leaves below `upperIdx n`. -/
theorem sumLoop_correct (D : Nat) (junk : Node) (f : Nat → Int) (t : RangeTree)
    (hWF : WF D junk f t) (bound : Int) :
    ∀ (n : Nat), 1 ≤ n → n < 2 ^ (D + 1) →
      (upperIdx D n : Int) ≤ bound →
      bound < (upperIdx D n : Int) + ((2 ^ (D - lvl n) : Nat) : Int) →
      ∀ s : Int, (sumLoop D t bound (n : Int) s).1 = s + sumRange f 0 (upperIdx D n) := by
  intro n h1 h2 hub hG s
  have hpos : ((n : Int)) > 0 := by exact_mod_cast h1
  rcases Nat.lt_or_ge n 2 with hn1 | hn2
  · -- n = 1 : the root; the climb is blocked by `ni > 1` and `leveli() == 0` ends the loop
    have hne : n = 1 := by omega
    subst hne
    have hcond : ¬(((t.get (((1 : Nat) : Int) / 2)).upper_li D : Int) ≤ bound ∧
        ((1 : Nat) : Int) > 1) := by
      rintro ⟨_, hgt⟩
      norm_num at hgt
    have hlev : ¬(t.get ((1 : Nat) : Int)).leveli > 0 := by
      rw [wf_get_leveli D junk f t hWF (by norm_num) h2, lvl_one]
      norm_num
    rw [sumLoop_add_break D t bound _ s hpos hcond hlev,
      wf_get_val D junk f t hWF (by norm_num) h2]
    have hlow : lowerIdx D 1 = 0 := by
      simp [lowerIdx, lvl_one, Nat.log2]
    rw [hlow]
  · -- n ≥ 2
    obtain ⟨e, d, hed, helt, hd1, hdD, hlvl⟩ :
        ∃ e d, n = 2 ^ d + e ∧ e < 2 ^ d ∧ 1 ≤ d ∧ d ≤ D ∧ lvl n = d := by
      obtain ⟨hdec, hl⟩ := decomp h1
      exact ⟨n - 2 ^ lvl n, lvl n, by omega, hl, lvl_pos hn2, lvl_le h1 h2, rfl⟩
    subst hed
    rw [lvl_decomp helt] at hlvl
    have hupn : upperIdx D (2 ^ d + e) = (e + 1) * 2 ^ (D - d) := upperIdx_decomp D helt
    have hlown : lowerIdx D (2 ^ d + e) = e * 2 ^ (D - d) := lowerIdx_decomp D helt
    have hcovn : 2 ^ (D - lvl (2 ^ d + e)) = 2 ^ (D - d) := by rw [lvl_decomp helt]
    rw [hcovn] at hG
    have hgt1 : ((2 ^ d + e : Nat) : Int) > 1 := by exact_mod_cast hn2
    have hhalfpos : 1 ≤ (2 ^ d + e) / 2 := by
      have : 0 < 2 ^ d := Nat.pos_pow_of_pos d (by omega)
      omega
    have hhalflt : (2 ^ d + e) / 2 < 2 ^ (D + 1) := by omega
    have hupq : (t.get (((2 ^ d + e : Nat) : Int) / 2)).upper_li D =
        upperIdx D ((2 ^ d + e) / 2) := by
      rw [natCast_div_two]
      exact wf_get_upper D junk f t hWF hhalfpos hhalflt
    rcases Nat.even_or_odd e with ⟨f2, hf2⟩ | ⟨f2, hf2⟩
    · -- e even : the parent coverage overshoots `bound`, so the node is added
      have hfe : e = 2 * f2 := by omega
      subst hfe
      have hqup : upperIdx D ((2 ^ d + 2 * f2) / 2) =
          upperIdx D (2 ^ d + 2 * f2) + 2 ^ (D - d) :=
        upperIdx_parent_even D hd1 hdD helt
      have hcond : ¬(((t.get (((2 ^ d + 2 * f2 : Nat) : Int) / 2)).upper_li D : Int) ≤ bound ∧
          ((2 ^ d + 2 * f2 : Nat) : Int) > 1) := by
        rintro ⟨hle, _⟩
        rw [hupq, hqup, Nat.cast_add] at hle
        omega
      have hlevn : (t.get ((2 ^ d + 2 * f2 : Nat) : Int)).leveli = 2 * f2 := by
        rw [wf_get_leveli D junk f t hWF h1 h2, lvl_decomp helt]
        omega
      have hvaln : (t.get ((2 ^ d + 2 * f2 : Nat) : Int)).val =
          sumRange f (lowerIdx D (2 ^ d + 2 * f2)) (upperIdx D (2 ^ d + 2 * f2)) :=
        wf_get_val D junk f t hWF h1 h2
      rcases Nat.eq_zero_or_pos f2 with hf0 | hfpos
      · -- leftmost node on its level : add and break
        subst hf0
        have hlev : ¬(t.get ((2 ^ d + 2 * 0 : Nat) : Int)).leveli > 0 := by
          rw [hlevn]
          norm_num
        rw [sumLoop_add_break D t bound _ s hpos hcond hlev, hvaln, hlown]
        norm_num
      · -- add and step left, then immediately climb to the left parent
        have hlev : (t.get ((2 ^ d + 2 * f2 : Nat) : Int)).leveli > 0 := by
          rw [hlevn]
          omega
        rw [sumLoop_add_step D t bound _ s hpos hcond hlev, hvaln]
        have hp2d : 0 < 2 ^ d := Nat.pos_pow_of_pos d (by omega)
        have h2le : (2 : Nat) ≤ 2 ^ d := Nat.one_lt_two_pow_iff.mpr (by omega)
        have hstep : ((2 ^ d + 2 * f2 : Nat) : Int) - 1 = ((2 ^ d + 2 * f2 - 1 : Nat) : Int) := by
          omega
        rw [hstep]
        have hm1 : 2 ^ d + 2 * f2 - 1 = 2 ^ d + (2 * (f2 - 1) + 1) := by omega
        -- the left sibling 2^d + 2 f2 - 1 is odd; its parent coverage ends at lowerIdx n
        have hodd : 2 * (f2 - 1) + 1 < 2 ^ d := by omega
        have hupm1 : upperIdx D (2 ^ d + (2 * (f2 - 1) + 1)) = 2 * f2 * 2 ^ (D - d) := by
          rw [upperIdx_decomp D hodd]
          congr 1
          omega
        have hq2 : upperIdx D ((2 ^ d + (2 * (f2 - 1) + 1)) / 2) =
            upperIdx D (2 ^ d + (2 * (f2 - 1) + 1)) :=
          upperIdx_parent_odd D hd1 hdD hodd
        have hkey : ((2 * f2 * 2 ^ (D - d) : Nat) : Int) ≤ bound := by
          have hNle : 2 * f2 * 2 ^ (D - d) ≤ upperIdx D (2 ^ d + 2 * f2) := by
            rw [hupn]
            exact Nat.mul_le_mul_right _ (by omega)
          calc ((2 * f2 * 2 ^ (D - d) : Nat) : Int)
              ≤ ((upperIdx D (2 ^ d + 2 * f2) : Nat) : Int) := by exact_mod_cast hNle
            _ ≤ bound := hub
        have hcond2 : ((t.get (((2 ^ d + 2 * f2 - 1 : Nat) : Int) / 2)).upper_li D : Int) ≤ bound ∧
            ((2 ^ d + 2 * f2 - 1 : Nat) : Int) > 1 := by
          constructor
          · rw [hm1, natCast_div_two, wf_get_upper D junk f t hWF (by omega) (by omega), hq2, hupm1]
            exact hkey
          · have hN : 1 < 2 ^ d + 2 * f2 - 1 := by omega
            exact_mod_cast hN
        have hm1posI : ((2 ^ d + 2 * f2 - 1 : Nat) : Int) > 0 := by
          have hN : 0 < 2 ^ d + 2 * f2 - 1 := by omega
          exact_mod_cast hN
        rw [sumLoop_climb D t bound _ _ hm1posI hcond2]
        have hdiv : ((2 ^ d + 2 * f2 - 1 : Nat) : Int) / 2 =
            (((2 ^ d + (2 * (f2 - 1) + 1)) / 2 : Nat) : Int) := by
          rw [← hm1, natCast_div_two]
        rw [hdiv]
        -- recursive call at the parent of the left sibling
        have hrecpos : 1 ≤ (2 ^ d + (2 * (f2 - 1) + 1)) / 2 := by omega
        have hreclt : (2 ^ d + (2 * (f2 - 1) + 1)) / 2 < 2 ^ (D + 1) := by omega
        have hrecub : ((upperIdx D ((2 ^ d + (2 * (f2 - 1) + 1)) / 2) : Nat) : Int) ≤ bound := by
          rw [hq2, hupm1]
          exact hkey
        have hcovq2 : 2 ^ (D - lvl ((2 ^ d + (2 * (f2 - 1) + 1)) / 2)) = 2 * 2 ^ (D - d) :=
          cov_half D hd1 hdD hodd
        have hrecG : bound < ((upperIdx D ((2 ^ d + (2 * (f2 - 1) + 1)) / 2) : Nat) : Int) +
            ((2 ^ (D - lvl ((2 ^ d + (2 * (f2 - 1) + 1)) / 2)) : Nat) : Int) := by
          rw [hq2, hupm1, hcovq2]
          have hNeq : 2 * f2 * 2 ^ (D - d) + 2 * 2 ^ (D - d) =
              upperIdx D (2 ^ d + 2 * f2) + 2 ^ (D - d) := by
            rw [hupn]
            ring
          have hCeq : ((2 * f2 * 2 ^ (D - d) : Nat) : Int) + ((2 * 2 ^ (D - d) : Nat) : Int) =
              ((upperIdx D (2 ^ d + 2 * f2) : Nat) : Int) + ((2 ^ (D - d) : Nat) : Int) := by
            exact_mod_cast congrArg (fun x : Nat => (x : Int)) hNeq
          omega
        rw [sumLoop_correct D junk f t hWF bound _ hrecpos hreclt hrecub hrecG, hq2, hupm1]
        have hmb : 2 * f2 * 2 ^ (D - d) ≤ upperIdx D (2 ^ d + 2 * f2) := by
          rw [← hlown]
          exact lowerIdx_le_upperIdx D _
        have hsplit := sumRange_split f (Nat.zero_le (2 * f2 * 2 ^ (D - d))) hmb
        rw [hlown]
        omega
    · -- e odd : climb to the parent, which covers the same upper bound
      have hfe : e = 2 * f2 + 1 := by omega
      subst hfe
      have hqup : upperIdx D ((2 ^ d + (2 * f2 + 1)) / 2) = upperIdx D (2 ^ d + (2 * f2 + 1)) :=
        upperIdx_parent_odd D hd1 hdD helt
      have hcond : ((t.get (((2 ^ d + (2 * f2 + 1) : Nat) : Int) / 2)).upper_li D : Int) ≤ bound ∧
          ((2 ^ d + (2 * f2 + 1) : Nat) : Int) > 1 := by
        refine ⟨?_, hgt1⟩
        rw [hupq, hqup]
        exact hub
      rw [sumLoop_climb D t bound _ s hpos hcond, natCast_div_two]
      have hcovq : 2 ^ (D - lvl ((2 ^ d + (2 * f2 + 1)) / 2)) = 2 * 2 ^ (D - d) :=
        cov_half D hd1 hdD helt
      have hrecG : bound < (upperIdx D ((2 ^ d + (2 * f2 + 1)) / 2) : Int) +
          ((2 ^ (D - lvl ((2 ^ d + (2 * f2 + 1)) / 2)) : Nat) : Int) := by
        rw [hqup, hcovq]
        push_cast at hG ⊢
        omega
      have hrecub : (upperIdx D ((2 ^ d + (2 * f2 + 1)) / 2) : Int) ≤ bound := by
        rw [hqup]
        exact hub
      rw [sumLoop_correct D junk f t hWF bound _ hhalfpos hhalflt hrecub hrecG, hqup]
termination_by n => n
decreasing_by
  · omega
  · have : 0 < 2 ^ d := Nat.pos_pow_of_pos d (by omega)
    omega

end RangeTreeCpp

namespace RangeTreeCpp

/-- `sum(k)` on the tree obtained by replaying the insert list `L` on a
fresh tree returns the sum of all deltas inserted at leaf indices `< k`,
for every `k` in `[1, MAX_LEAVES]`. -/
theorem sum_after_inserts (D : Nat) (junk : Node) (L : List (Nat × Int))
    (hL : ∀ p ∈ L, p.1 < MAX_LEAVES D) (k : Nat) (hk1 : 1 ≤ k) (hk2 : k ≤ MAX_LEAVES D) :
    (applyInserts D L (RangeTree.init D junk)).sum D (k : Int) = specSum k L := by
  have hWF := applyInserts_WF D junk L (fun _ => 0) _ (init_WF D junk) hL
  rw [MAX_LEAVES_eq] at hk2
  rw [RangeTree.sum]
  have hp : 0 < 2 ^ D := Nat.pos_pow_of_pos D (by omega)
  have hstart : sumStart D (k : Int) = ((k - 1 + 2 ^ D : Nat) : Int) := by
    rw [sumStart, MAX_LEAVES_eq]
    omega
  rw [hstart]
  have h1 : 1 ≤ k - 1 + 2 ^ D := by omega
  have hps : 2 ^ (D + 1) = 2 ^ D * 2 := pow_succ 2 D
  have h2 : k - 1 + 2 ^ D < 2 ^ (D + 1) := by omega
  have he : k - 1 + 2 ^ D = 2 ^ D + (k - 1) := by omega
  have hupn : upperIdx D (k - 1 + 2 ^ D) = k := by
    rw [he, upperIdx_decomp D (by omega : k - 1 < 2 ^ D), Nat.sub_self, pow_zero, mul_one]
    omega
  have hlvl : lvl (k - 1 + 2 ^ D) = D := by
    rw [he]
    exact lvl_decomp (by omega)
  have hub : ((upperIdx D (k - 1 + 2 ^ D) : Nat) : Int) ≤ (k : Int) := by
    rw [hupn]
  have hG : (k : Int) < ((upperIdx D (k - 1 + 2 ^ D) : Nat) : Int) +
      ((2 ^ (D - lvl (k - 1 + 2 ^ D)) : Nat) : Int) := by
    rw [hupn, hlvl, Nat.sub_self, pow_zero]
    norm_num
  rw [sumLoop_correct D junk _ _ hWF (k : Int) _ h1 h2 hub hG 0, hupn, zero_add,
    sumRange_totalsFrom, sumRange_zero_fn, coverSum_from_zero, zero_add]

/-- On a well-formed tree every in-range node has a positive `upper_li`,
so with `bound ≤ 0` the climb condition can never hold. -/
theorem upper_li_pos_of_WF (D : Nat) (junk : Node) (f : Nat → Int) (t : RangeTree)
    (hWF : WF D junk f t) {j : Nat} (h1 : 1 ≤ j) (h2 : j < TREE_SIZE D) :
    1 ≤ (t.nodes j).upper_li D := by
  rw [hWF j, if_pos ⟨h1, h2⟩, wfNode_upper_li]
  exact upperIdx_pos D j

/-- With a non-positive bound the loop never climbs: it walks left across
the whole level of its starting node, summing every node of that level. -/
theorem sumLoop_boundZero (D : Nat) (junk : Node) (f : Nat → Int) (t : RangeTree)
    (hWF : WF D junk f t) (bound : Int) (hb : bound ≤ 0) (hD : 1 ≤ D) :
    ∀ n : Nat, 2 ^ (D - 1) ≤ n → n < 2 ^ D →
      ∀ s : Int, (sumLoop D t bound (n : Int) s).1 = s + sumRange f 0 (upperIdx D n) := by
  intro n hlo hhi s
  have hp : 0 < 2 ^ (D - 1) := Nat.pos_pow_of_pos _ (by omega)
  have h1 : 1 ≤ n := by omega
  have hps : 2 ^ (D + 1) = 2 ^ D * 2 := pow_succ 2 D
  have h2 : n < 2 ^ (D + 1) := by omega
  have hDm : D - 1 + 1 = D := by omega
  have hpow : 2 ^ D = 2 ^ (D - 1) * 2 := by
    rw [← hDm]
    exact pow_succ 2 (D - 1)
  have hlvl : lvl n = D - 1 := lvl_eq_of hlo (by rw [hDm]; exact hhi)
  have hpos : ((n : Int)) > 0 := by exact_mod_cast h1
  have hcond : ¬(((t.get ((n : Int) / 2)).upper_li D : Int) ≤ bound ∧ (n : Int) > 1) := by
    rintro ⟨hle, hgt⟩
    have hn2 : (2 : Nat) ≤ n := by exact_mod_cast hgt
    have hq1 : 1 ≤ n / 2 := by omega
    have hq2 : n / 2 < 2 ^ (D + 1) := by omega
    rw [natCast_div_two, wf_get_upper D junk f t hWF hq1 hq2] at hle
    have hup := upperIdx_pos D (n / 2)
    have hupI : (1 : Int) ≤ ((upperIdx D (n / 2) : Nat) : Int) := by exact_mod_cast hup
    omega
  have hlev : (t.get ((n : Int))).leveli = n - 2 ^ (D - 1) := by
    rw [wf_get_leveli D junk f t hWF h1 h2, hlvl]
  have hval := wf_get_val D junk f t hWF h1 h2
  rcases Nat.eq_or_lt_of_le hlo with heq | hlt
  · have hlev0 : ¬(t.get ((n : Int))).leveli > 0 := by
      rw [hlev]
      omega
    rw [sumLoop_add_break D t bound _ s hpos hcond hlev0, hval]
    have hne : n = 2 ^ (D - 1) + 0 := by omega
    have hlow0 : lowerIdx D n = 0 := by
      rw [hne, lowerIdx_decomp D (by omega : 0 < 2 ^ (D - 1))]
      omega
    rw [hlow0]
  · have hlevpos : (t.get ((n : Int))).leveli > 0 := by
      rw [hlev]
      omega
    rw [sumLoop_add_step D t bound _ s hpos hcond hlevpos, hval]
    have hstepI : ((n : Int)) - 1 = ((n - 1 : Nat) : Int) := by omega
    rw [hstepI, sumLoop_boundZero D junk f t hWF bound hb hD (n - 1) (by omega) (by omega)]
    have hd2 : n - 1 = 2 ^ (D - 1) + (n - 2 ^ (D - 1) - 1) := by omega
    have hd : n = 2 ^ (D - 1) + (n - 2 ^ (D - 1)) := by omega
    have hup1 : upperIdx D (n - 1) = lowerIdx D n := by
      rw [hd2, upperIdx_decomp D (by omega)]
      conv_rhs => rw [hd]
      rw [lowerIdx_decomp D (by omega)]
      congr 1
      omega
    rw [hup1]
    have hsplit := sumRange_split f (Nat.zero_le (lowerIdx D n)) (lowerIdx_le_upperIdx D n)
    omega
termination_by n => n
decreasing_by omega

/-- Every access made by the sum loop is a read of a slot index at most the
starting index. -/
theorem sumLoop_trace (D : Nat) (t : RangeTree) (bound : Int) :
    ∀ (ni s : Int), ∀ a ∈ (sumLoop D t bound ni s).2,
      ∃ i : Nat, a = Access.read i ∧ (i : Int) ≤ ni := by
  intro ni s a ha
  by_cases hpos : ni > 0
  · by_cases hc : ((t.get (ni / 2)).upper_li D : Int) ≤ bound ∧ ni > 1
    · rw [sumLoop_climb D t bound ni s hpos hc] at ha
      rcases List.mem_cons.mp ha with rfl | ha2
      · exact ⟨(ni / 2).toNat, rfl, by omega⟩
      · obtain ⟨i, hi, hle⟩ := sumLoop_trace D t bound (ni / 2) s a ha2
        exact ⟨i, hi, by omega⟩
    · by_cases hl : (t.get ni).leveli > 0
      · rw [sumLoop_add_step D t bound ni s hpos hc hl] at ha
        rcases List.mem_cons.mp ha with rfl | ha2
        · exact ⟨(ni / 2).toNat, rfl, by omega⟩
        · rcases List.mem_cons.mp ha2 with rfl | ha3
          · exact ⟨ni.toNat, rfl, by omega⟩
          · obtain ⟨i, hi, hle⟩ :=
              sumLoop_trace D t bound (ni - 1) (s + (t.get ni).val) a ha3
            exact ⟨i, hi, by omega⟩
      · rw [sumLoop_add_break D t bound ni s hpos hc hl] at ha
        rcases List.mem_cons.mp ha with rfl | ha2
        · exact ⟨(ni / 2).toNat, rfl, by omega⟩
        · rcases List.mem_cons.mp ha2 with rfl | ha3
          · exact ⟨ni.toNat, rfl, by omega⟩
          · exact absurd ha3 (List.not_mem_nil a)
  · rw [sumLoop_exit D t bound ni s hpos] at ha
    exact absurd ha (List.not_mem_nil a)
termination_by ni s => ni.toNat
decreasing_by
  · omega
  · omega

/-- Calling `sum` with bound `MAX_LEAVES` climbs the right spine up to the
root, where the loop condition evaluates `nodes[parenti]` with
`parenti = 0`: slot 0 is read. -/
theorem sumLoop_spine_zero_read (D : Nat) (junk : Node) (f : Nat → Int) (t : RangeTree)
    (hWF : WF D junk f t) :
    ∀ d : Nat, d ≤ D → ∀ s : Int,
      Access.read 0 ∈ (sumLoop D t (MAX_LEAVES D : Int) ((2 ^ (d + 1) - 1 : Nat) : Int) s).2 := by
  intro d
  induction d with
  | zero =>
    intro _ s
    have hone : ((2 ^ (0 + 1) - 1 : Nat) : Int) = ((1 : Nat) : Int) := by norm_num
    rw [hone]
    have hpos : (((1 : Nat) : Int)) > 0 := by norm_num
    have hcond : ¬(((t.get (((1 : Nat) : Int) / 2)).upper_li D : Int) ≤ (MAX_LEAVES D : Int) ∧
        ((1 : Nat) : Int) > 1) := by
      rintro ⟨_, hgt⟩
      norm_num at hgt
    have h2D : (1 : Nat) < 2 ^ (D + 1) := Nat.one_lt_two_pow_iff.mpr (by omega)
    have hlev : ¬(t.get ((1 : Nat) : Int)).leveli > 0 := by
      rw [wf_get_leveli D junk f t hWF (by norm_num) h2D, lvl_one]
      norm_num
    rw [sumLoop_add_break D t (MAX_LEAVES D : Int) _ s hpos hcond hlev]
    have : (((1 : Nat) : Int) / 2).toNat = 0 := by norm_num
    rw [this]
    exact List.mem_cons_self _ _
  | succ d ih =>
    intro hdD s
    have hps2 : 2 ^ (d + 2) = 2 ^ (d + 1) * 2 := pow_succ 2 (d + 1)
    have hps1 : 2 ^ (d + 1) = 2 ^ d * 2 := pow_succ 2 d
    have hp : 0 < 2 ^ d := Nat.pos_pow_of_pos d (by omega)
    have hpos : (((2 ^ (d + 1 + 1) - 1 : Nat) : Int)) > 0 := by
      have : 0 < 2 ^ (d + 1 + 1) - 1 := by omega
      exact_mod_cast this
    have hqpos : 1 ≤ 2 ^ (d + 1) - 1 := by omega
    have hqlt : 2 ^ (d + 1) - 1 < 2 ^ (D + 1) := by
      have : 2 ^ (d + 1) ≤ 2 ^ (D + 1) := Nat.pow_le_pow_right (by omega) (by omega)
      omega
    have hdiv : ((2 ^ (d + 1 + 1) - 1 : Nat) : Int) / 2 = ((2 ^ (d + 1) - 1 : Nat) : Int) := by
      rw [natCast_div_two]
      congr 1
      omega
    have hqdec : 2 ^ (d + 1) - 1 = 2 ^ d + (2 ^ d - 1) := by omega
    have hqup : upperIdx D (2 ^ (d + 1) - 1) = 2 ^ D := by
      rw [hqdec, upperIdx_decomp D (by omega)]
      have h1 : 2 ^ d - 1 + 1 = 2 ^ d := by omega
      rw [h1, ← pow_add]
      congr 1
      omega
    have hcond : ((t.get (((2 ^ (d + 1 + 1) - 1 : Nat) : Int) / 2)).upper_li D :
        Int) ≤ (MAX_LEAVES D : Int) ∧ ((2 ^ (d + 1 + 1) - 1 : Nat) : Int) > 1 := by
      constructor
      · rw [hdiv, wf_get_upper D junk f t hWF hqpos hqlt, hqup, MAX_LEAVES_eq]
      · have : 1 < 2 ^ (d + 1 + 1) - 1 := by omega
        exact_mod_cast this
    rw [sumLoop_climb D t (MAX_LEAVES D : Int) _ s hpos hcond, hdiv]
    exact List.mem_cons_of_mem _ (ih (by omega) s)

/-- The halving loop of the slow-path constructor computes `Nat.log2`. -/
theorem slowLevelGo_eq (k : Nat) : ∀ level : Nat, slowLevelGo level k = level + Nat.log2 k := by
  intro level
  rw [slowLevelGo]
  by_cases h : k > 1
  · rw [if_pos h, shiftRight_one_eq, slowLevelGo_eq (k / 2) (level + 1)]
    have hl : Nat.log2 k = Nat.log2 (k / 2) + 1 := by
      rw [Nat.log2]
      simp [show k ≥ 2 by omega]
    omega
  · rw [if_neg h]
    have : Nat.log2 k = 0 := by
      rw [Nat.log2]
      simp [show ¬k ≥ 2 by omega]
    omega
termination_by k
decreasing_by
  have : k / 2 < k := Nat.div_lt_self (by omega) (by omega)
  omega

end RangeTreeCpp

namespace RangeTreeCpp

theorem log2_half {n : Nat} (h : 2 ≤ n) : Nat.log2 n = Nat.log2 (n / 2) + 1 := by
  rw [Nat.log2]
  simp [h]

/-! ### Claim theorems -/

/-- C1: for every sequence of `insert(li, v)` calls with each `li` in
`[0, MAX_LEAVES)`, and for every `k` in `[1, MAX_LEAVES]`, `sum(k)` returns
the sum of `v` over all inserted `(li, v)` pairs with `li < k`. -/
theorem C1_sum_prefix_aggregate (D : Nat) (junk : Node) (L : List (Nat × Int))
    (hL : ∀ p ∈ L, p.1 < MAX_LEAVES D) (k : Nat) (hk1 : 1 ≤ k) (hk2 : k ≤ MAX_LEAVES D) :
    (applyInserts D L (RangeTree.init D junk)).sum D (k : Int) = specSum k L :=
  sum_after_inserts D junk L hL k hk1 hk2

theorem C1_sum_prefix_aggregate_witness :
    (∀ p ∈ [((2 : Nat), (5 : Int)), (6, 3)], p.1 < MAX_LEAVES 3) ∧ 1 ≤ 3 ∧ 3 ≤ MAX_LEAVES 3 ∧
    (applyInserts 3 [(2, 5), (6, 3)] (RangeTree.init 3 junk0)).sum 3 ((3 : Nat) : Int) =
      specSum 3 [(2, 5), (6, 3)] :=
  ⟨by decide, by norm_num, by decide,
    C1_sum_prefix_aggregate 3 junk0 [(2, 5), (6, 3)] (by decide) 3 (by norm_num) (by decide)⟩

/-- C2: after replaying any sequence of in-range inserts (hence after every
individual insert call, since `L` ranges over all prefixes as well), every
node `ni` in `1..TREE_SIZE-1` has `val` equal to the sum of all deltas
inserted at leaves in its own coverage range `[lower_li(), upper_li())`. -/
theorem C2_val_invariant (D : Nat) (junk : Node) (L : List (Nat × Int))
    (hL : ∀ p ∈ L, p.1 < MAX_LEAVES D) (ni : Nat) (h1 : 1 ≤ ni) (h2 : ni < TREE_SIZE D) :
    ((applyInserts D L (RangeTree.init D junk)).nodes ni).val =
      coverSum (((applyInserts D L (RangeTree.init D junk)).nodes ni).lower_li D)
        (((applyInserts D L (RangeTree.init D junk)).nodes ni).upper_li D) L := by
  have hWF := applyInserts_WF D junk L (fun _ => 0) _ (init_WF D junk) hL
  rw [hWF ni, if_pos ⟨h1, h2⟩, wfNode_lower_li, wfNode_upper_li]
  show sumRange (totalsFrom (fun _ => 0) L) (lowerIdx D ni) (upperIdx D ni) = _
  rw [sumRange_totalsFrom, sumRange_zero_fn, zero_add]

theorem C2_val_invariant_witness :
    (∀ p ∈ [((1 : Nat), (3 : Int))], p.1 < MAX_LEAVES 2) ∧ 1 ≤ 1 ∧ 1 < TREE_SIZE 2 ∧
    ((applyInserts 2 [(1, 3)] (RangeTree.init 2 junk0)).nodes 1).val =
      coverSum (((applyInserts 2 [(1, 3)] (RangeTree.init 2 junk0)).nodes 1).lower_li 2)
        (((applyInserts 2 [(1, 3)] (RangeTree.init 2 junk0)).nodes 1).upper_li 2) [(1, 3)] :=
  ⟨by decide, le_refl 1, by decide,
    C2_val_invariant 2 junk0 [(1, 3)] (by decide) 1 (le_refl 1) (by decide)⟩

/-- C4 as claimed is false: with `upperBound = 0` the starting slot is
`MAX_LEAVES - 1 = 65535`, but in the constructed tree that slot has level
`15 = D - 1` (not the leaf level `D = 16`) and covers the two leaves
`[65534, 65536)`, not only the single leaf `65535`. -/
theorem C4_counterexample :
    sumStart 16 0 = ((MAX_LEAVES 16 - 1 : Nat) : Int) ∧
    ¬((RangeTree.init 16 junk0).nodes (MAX_LEAVES 16 - 1)).level = 16 ∧
    ((RangeTree.init 16 junk0).nodes (MAX_LEAVES 16 - 1)).level = 15 ∧
    ¬((RangeTree.init 16 junk0).nodes (MAX_LEAVES 16 - 1)).lower_li 16 = MAX_LEAVES 16 - 1 ∧
    ((RangeTree.init 16 junk0).nodes (MAX_LEAVES 16 - 1)).lower_li 16 = MAX_LEAVES 16 - 2 ∧
    ((RangeTree.init 16 junk0).nodes (MAX_LEAVES 16 - 1)).upper_li 16 = MAX_LEAVES 16 := by
  have hWF := init_WF 16 junk0
  have hM : MAX_LEAVES 16 - 1 = 65535 := by decide
  have hnode := hWF (MAX_LEAVES 16 - 1)
  rw [if_pos (by decide : 1 ≤ MAX_LEAVES 16 - 1 ∧ MAX_LEAVES 16 - 1 < TREE_SIZE 16)] at hnode
  have hlog : Nat.log2 (MAX_LEAVES 16 - 1) = 15 := by
    rw [hM]
    exact lvl_eq_of (by norm_num) (by norm_num)
  constructor
  · rw [sumStart, MAX_LEAVES_eq]
    omega
  refine ⟨?_, ?_, ?_, ?_, ?_⟩
  · rw [hnode]
    show ¬Nat.log2 (MAX_LEAVES 16 - 1) = 16
    rw [hlog]
    norm_num
  · rw [hnode]
    exact hlog
  · rw [hnode, wfNode_lower_li]
    show ¬lowerIdx 16 (MAX_LEAVES 16 - 1) = MAX_LEAVES 16 - 1
    rw [lowerIdx, hM]
    show ¬(65535 - 2 ^ lvl 65535) * 2 ^ (16 - lvl 65535) = 65535
    rw [show lvl 65535 = 15 from hM ▸ hlog]
    norm_num
  · rw [hnode, wfNode_lower_li, lowerIdx, hM]
    show (65535 - 2 ^ lvl 65535) * 2 ^ (16 - lvl 65535) = MAX_LEAVES 16 - 2
    rw [show lvl 65535 = 15 from hM ▸ hlog]
    decide
  · rw [hnode, wfNode_upper_li, upperIdx, hM]
    show (65535 - 2 ^ lvl 65535 + 1) * 2 ^ (16 - lvl 65535) = MAX_LEAVES 16
    rw [show lvl 65535 = 15 from hM ▸ hlog]
    decide

/-- C4 (amended): for `upperBound = 0` the starting slot index is
`MAX_LEAVES - 1`, and that slot is the last node of level `D - 1`,
covering the last two leaves `[MAX_LEAVES - 2, MAX_LEAVES)` (for `D ≥ 1`);
it is not a leaf. -/
theorem C4_start_slot_level (D : Nat) (hD : 1 ≤ D) (junk : Node) :
    sumStart D 0 = ((MAX_LEAVES D - 1 : Nat) : Int) ∧
    ((RangeTree.init D junk).nodes (MAX_LEAVES D - 1)).level = D - 1 ∧
    ((RangeTree.init D junk).nodes (MAX_LEAVES D - 1)).lower_li D = MAX_LEAVES D - 2 ∧
    ((RangeTree.init D junk).nodes (MAX_LEAVES D - 1)).upper_li D = MAX_LEAVES D := by
  have hWF := init_WF D junk
  have hDm : D - 1 + 1 = D := by omega
  have hpow : 2 ^ D = 2 ^ (D - 1) * 2 := by
    rw [← hDm]
    exact pow_succ 2 (D - 1)
  have hp : 0 < 2 ^ (D - 1) := Nat.pos_pow_of_pos _ (by omega)
  have hM : MAX_LEAVES D = 2 ^ D := MAX_LEAVES_eq D
  have hr : 1 ≤ MAX_LEAVES D - 1 ∧ MAX_LEAVES D - 1 < TREE_SIZE D := by
    rw [hM, TREE_SIZE_eq]
    have := pow_succ 2 D
    omega
  have hnode := hWF (MAX_LEAVES D - 1)
  rw [if_pos hr] at hnode
  have hdec : MAX_LEAVES D - 1 = 2 ^ (D - 1) + (2 ^ (D - 1) - 1) := by
    rw [hM]
    omega
  have hlog : Nat.log2 (MAX_LEAVES D - 1) = D - 1 := by
    rw [hdec]
    exact lvl_decomp (by omega)
  refine ⟨?_, ?_, ?_, ?_⟩
  · rw [sumStart, hM]
    have h2 : 2 ≤ 2 ^ D := by omega
    omega
  · rw [hnode]
    exact hlog
  · rw [hnode, wfNode_lower_li]
    show lowerIdx D (MAX_LEAVES D - 1) = MAX_LEAVES D - 2
    rw [hdec, lowerIdx_decomp D (by omega)]
    have hd1 : D - (D - 1) = 1 := by omega
    rw [hd1, pow_one, hM]
    omega
  · rw [hnode, wfNode_upper_li]
    show upperIdx D (MAX_LEAVES D - 1) = MAX_LEAVES D
    rw [hdec, upperIdx_decomp D (by omega)]
    have hd1 : D - (D - 1) = 1 := by omega
    have hd2 : 2 ^ (D - 1) - 1 + 1 = 2 ^ (D - 1) := by omega
    rw [hd1, pow_one, hd2, hM]
    omega

theorem C4_start_slot_level_witness :
    1 ≤ 16 ∧ sumStart 16 0 = ((MAX_LEAVES 16 - 1 : Nat) : Int) ∧
    ((RangeTree.init 16 junk0).nodes (MAX_LEAVES 16 - 1)).level = 16 - 1 ∧
    ((RangeTree.init 16 junk0).nodes (MAX_LEAVES 16 - 1)).lower_li 16 = MAX_LEAVES 16 - 2 ∧
    ((RangeTree.init 16 junk0).nodes (MAX_LEAVES 16 - 1)).upper_li 16 = MAX_LEAVES 16 :=
  ⟨by norm_num, C4_start_slot_level 16 (by norm_num) junk0⟩

/-- C6 as claimed is false: in the boundary scenario the code returns
`sum(7) = 17`, not `7` (the prefix `li < 7` includes leaf 6, whose delta is
10), so `sum(7) == 7` fails. -/
theorem C6_counterexample :
    ¬((applyInserts 3 [(3, 5), (3, 2), (6, 10)] (RangeTree.init 3 junk0)).sum 3 7 = 7) := by
  have h := sum_after_inserts 3 junk0 [(3, 5), (3, 2), (6, 10)] (by decide) 7
    (by norm_num) (by decide)
  rw [show ((7 : Nat) : Int) = (7 : Int) by norm_num] at h
  rw [h]
  decide

/-- C6 (amended): in the boundary scenario (D = 3) the queries return
`sum(4) = 7`, `sum(3) = 0`, `sum(7) = 17` (not 7), `sum(8) = 17`, and
`sum(7) - sum(3) = 17` (not 7). -/
theorem C6_boundary_scenario :
    (applyInserts 3 [(3, 5), (3, 2), (6, 10)] (RangeTree.init 3 junk0)).sum 3 4 = 7 ∧
    (applyInserts 3 [(3, 5), (3, 2), (6, 10)] (RangeTree.init 3 junk0)).sum 3 3 = 0 ∧
    (applyInserts 3 [(3, 5), (3, 2), (6, 10)] (RangeTree.init 3 junk0)).sum 3 7 = 17 ∧
    (applyInserts 3 [(3, 5), (3, 2), (6, 10)] (RangeTree.init 3 junk0)).sum 3 8 = 17 ∧
    (applyInserts 3 [(3, 5), (3, 2), (6, 10)] (RangeTree.init 3 junk0)).sum 3 7 -
      (applyInserts 3 [(3, 5), (3, 2), (6, 10)] (RangeTree.init 3 junk0)).sum 3 3 = 17 := by
  have h4 := sum_after_inserts 3 junk0 [(3, 5), (3, 2), (6, 10)] (by decide) 4
    (by norm_num) (by decide)
  have h3 := sum_after_inserts 3 junk0 [(3, 5), (3, 2), (6, 10)] (by decide) 3
    (by norm_num) (by decide)
  have h7 := sum_after_inserts 3 junk0 [(3, 5), (3, 2), (6, 10)] (by decide) 7
    (by norm_num) (by decide)
  have h8 := sum_after_inserts 3 junk0 [(3, 5), (3, 2), (6, 10)] (by decide) 8
    (by norm_num) (by decide)
  rw [show ((4 : Nat) : Int) = (4 : Int) by norm_num] at h4
  rw [show ((3 : Nat) : Int) = (3 : Int) by norm_num] at h3
  rw [show ((7 : Nat) : Int) = (7 : Int) by norm_num] at h7
  rw [show ((8 : Nat) : Int) = (8 : Int) by norm_num] at h8
  rw [h3, h4, h7, h8]
  refine ⟨by decide, by decide, by decide, by decide, by decide⟩

/-- C9: the slow construction path (repeated halving of `ni` until 1)
produces the same level as the fast path used during bulk construction,
namely the unique level with `2^level ≤ ni < 2^(level+1)`. -/
theorem C9_slow_fast_level (D : Nat) (junk : Node) (ni : Nat) (h1 : 1 ≤ ni)
    (h2 : ni < TREE_SIZE D) :
    (Node.ofNi ni).level = ((RangeTree.init D junk).nodes ni).level ∧
    2 ^ ((RangeTree.init D junk).nodes ni).level ≤ ni ∧
    ni < 2 ^ (((RangeTree.init D junk).nodes ni).level + 1) ∧
    (∀ l2 : Nat, 2 ^ l2 ≤ ni → ni < 2 ^ (l2 + 1) →
      l2 = ((RangeTree.init D junk).nodes ni).level) := by
  have hWF := init_WF D junk
  rw [hWF ni, if_pos ⟨h1, h2⟩]
  refine ⟨?_, pow_lvl_le h1, lt_pow_lvl ni, ?_⟩
  · show slowLevelGo 0 ni = Nat.log2 ni
    rw [slowLevelGo_eq ni 0]
    omega
  · intro l2 ha hb
    exact (lvl_eq_of ha hb).symm

theorem C9_slow_fast_level_witness :
    1 ≤ 5 ∧ 5 < TREE_SIZE 3 ∧
    ((Node.ofNi 5).level = ((RangeTree.init 3 junk0).nodes 5).level ∧
      2 ^ ((RangeTree.init 3 junk0).nodes 5).level ≤ 5 ∧
      5 < 2 ^ (((RangeTree.init 3 junk0).nodes 5).level + 1) ∧
      (∀ l2 : Nat, 2 ^ l2 ≤ 5 → 5 < 2 ^ (l2 + 1) →
        l2 = ((RangeTree.init 3 junk0).nodes 5).level)) :=
  ⟨by norm_num, by decide, C9_slow_fast_level 3 junk0 5 (by norm_num) (by decide)⟩

/-- C10: on every reachable state (with `D ≥ 1`), `sum(0)` returns the sum
of all deltas ever inserted — the full total, not 0 — and the climb
condition `upper_li() <= 0` is unsatisfiable at every in-range node. -/
theorem C10_sum_zero_full_total (D : Nat) (hD : 1 ≤ D) (junk : Node) (L : List (Nat × Int))
    (hL : ∀ p ∈ L, p.1 < MAX_LEAVES D) :
    (applyInserts D L (RangeTree.init D junk)).sum D 0 = (L.map Prod.snd).sum ∧
    (∀ j, 1 ≤ j → j < TREE_SIZE D →
      ¬((((applyInserts D L (RangeTree.init D junk)).nodes j).upper_li D : Int) ≤ 0)) := by
  have hWF := applyInserts_WF D junk L (fun _ => 0) _ (init_WF D junk) hL
  constructor
  · rw [RangeTree.sum]
    have hDm : D - 1 + 1 = D := by omega
    have hpow : 2 ^ D = 2 ^ (D - 1) * 2 := by
      rw [← hDm]
      exact pow_succ 2 (D - 1)
    have hp : 0 < 2 ^ (D - 1) := Nat.pos_pow_of_pos _ (by omega)
    have hstart : sumStart D 0 = ((2 ^ D - 1 : Nat) : Int) := by
      rw [sumStart, MAX_LEAVES_eq]
      omega
    rw [hstart,
      sumLoop_boundZero D junk _ _ hWF 0 (le_refl 0) hD (2 ^ D - 1) (by omega) (by omega) 0]
    have hup : upperIdx D (2 ^ D - 1) = 2 ^ D := by
      have hdec : 2 ^ D - 1 = 2 ^ (D - 1) + (2 ^ (D - 1) - 1) := by omega
      rw [hdec, upperIdx_decomp D (by omega)]
      have ha : 2 ^ (D - 1) - 1 + 1 = 2 ^ (D - 1) := by omega
      have hb : D - (D - 1) = 1 := by omega
      rw [ha, hb, pow_one]
      omega
    rw [hup, zero_add, sumRange_totalsFrom, sumRange_zero_fn, zero_add, coverSum_from_zero]
    exact specSum_total _ L (fun p hp2 => by
      have := hL p hp2
      rw [MAX_LEAVES_eq] at this
      exact this)
  · intro j hj1 hj2 hle
    have hup := upper_li_pos_of_WF D junk _ _ hWF hj1 hj2
    have hupI : (1 : Int) ≤
        ((((applyInserts D L (RangeTree.init D junk)).nodes j).upper_li D : Nat) : Int) := by
      exact_mod_cast hup
    omega

theorem C10_sum_zero_full_total_witness :
    1 ≤ 1 ∧ (∀ p ∈ [((0 : Nat), (7 : Int)), (1, 4)], p.1 < MAX_LEAVES 1) ∧
    (applyInserts 1 [(0, 7), (1, 4)] (RangeTree.init 1 junk0)).sum 1 0 =
      ([((0 : Nat), (7 : Int)), (1, 4)].map Prod.snd).sum :=
  ⟨le_refl 1, by decide,
    (C10_sum_zero_full_total 1 (le_refl 1) junk0 [(0, 7), (1, 4)] (by decide)).1⟩

end RangeTreeCpp

namespace RangeTreeCpp

/-- Coverage of `li` by node `j` is equivalent to `j` being one of the
`D + 1` repeated halvings of the leaf slot `li + 2^D`. -/
theorem cover_iff_anc (D li j : Nat) (hli : li < 2 ^ D) (hj1 : 1 ≤ j) (hj2 : j < 2 ^ (D + 1)) :
    (lowerIdx D j ≤ li ∧ li < upperIdx D j) ↔ ∃ k, k ≤ D ∧ j = (li + 2 ^ D) / 2 ^ k := by
  rw [← mem_ancChain_leaf_iff D li j hli hj1 hj2, mem_ancChain_iff]
  constructor
  · rintro ⟨hge, k, hk⟩
    refine ⟨k, ?_, hk⟩
    by_contra hgt
    have hz : (li + 2 ^ D) / 2 ^ k = 0 := by
      apply Nat.div_eq_of_lt
      have h1 : 2 ^ (D + 1) = 2 ^ D * 2 := pow_succ 2 D
      calc li + 2 ^ D < 2 ^ (D + 1) := by omega
        _ ≤ 2 ^ k := Nat.pow_le_pow_right (by omega) (by omega)
    omega
  · rintro ⟨k, _, hk⟩
    exact ⟨hj1, k, hk⟩

theorem div_pow_lt {x k1 k2 : Nat} (h : k1 < k2) (hx : 1 ≤ x / 2 ^ k1) :
    x / 2 ^ k2 < x / 2 ^ k1 := by
  have h1 : x / 2 ^ k2 = (x / 2 ^ k1) / 2 ^ (k2 - k1) := by
    rw [Nat.div_div_eq_div_mul, ← pow_add]
    congr 2
    omega
  rw [h1]
  have h2 : (x / 2 ^ k1) / 2 ^ (k2 - k1) ≤ (x / 2 ^ k1) / 2 := by
    apply Nat.div_le_div_left _ (by omega : 0 < 2)
    calc (2 : Nat) = 2 ^ 1 := (pow_one 2).symm
      _ ≤ 2 ^ (k2 - k1) := Nat.pow_le_pow_right (by omega) (by omega)
  have h3 : (x / 2 ^ k1) / 2 < x / 2 ^ k1 := Nat.div_lt_self (by omega) (by omega)
  omega

/-- Helper for C3 and C8: with the source capacity exponent `D = 16`,
`sum(MAX_LEAVES)` on the fresh tree reads slot 0 (the root's parent slot,
evaluated by the climb condition when `ni = 1`). -/
theorem read_zero_mem_init16 :
    Access.read 0 ∈ (RangeTree.init 16 junk0).sumAccesses 16 (MAX_LEAVES 16 : Int) := by
  have h := sumLoop_spine_zero_read 16 junk0 (fun _ => 0) _ (init_WF 16 junk0) 16 (le_refl 16) 0
  rw [RangeTree.sumAccesses]
  have hstart : sumStart 16 (MAX_LEAVES 16 : Int) = ((2 ^ (16 + 1) - 1 : Nat) : Int) := by
    rw [sumStart, MAX_LEAVES_eq]
    norm_num
  rw [hstart]
  exact h

/-- C3 as claimed is false: for `upperBound = MAX_LEAVES` (in the claimed
range `[1, MAX_LEAVES]`), `sum` reads array slot 0 when the climb reaches
the root: evaluating `nodes[parenti].upper_li()` with `ni = 1` accesses
`nodes[0]`. -/
theorem C3_counterexample :
    (1 : Int) ≤ (MAX_LEAVES 16 : Int) ∧
    Access.read 0 ∈ (RangeTree.init 16 junk0).sumAccesses 16 (MAX_LEAVES 16 : Int) :=
  ⟨by decide, read_zero_mem_init16⟩

/-- C3 (amended): every access `insert` makes is to a slot in
`[1, TREE_SIZE)`; `sum` performs reads only — never a write — and every
slot it reads is `< TREE_SIZE`, but the lower bound 1 fails for `sum`:
when the climb reaches the root the condition read of `nodes[ni >> 1]`
touches slot 0 (counterexample above). That read never affects the result
(the conjunct `ni > 1` is already false). -/
theorem C3_access_bounds (D : Nat) (t : RangeTree) (li : Nat) (hli : li < MAX_LEAVES D)
    (v : Int) (bound : Int) (hb : bound ≤ (MAX_LEAVES D : Int)) :
    (∀ a ∈ t.insertAccesses D li v, ∃ i, (a = Access.read i ∨ a = Access.write i) ∧
      1 ≤ i ∧ i < TREE_SIZE D) ∧
    (∀ a ∈ t.sumAccesses D bound, ∃ i : Nat, a = Access.read i ∧ i < TREE_SIZE D) := by
  constructor
  · intro a ha
    rw [RangeTree.insertAccesses] at ha
    obtain ⟨i, hi, hai⟩ := (mem_insertLoop_snd v _ t.nodes a).mp ha
    obtain ⟨hi1, hi2⟩ := mem_ancChain_bounds hi
    refine ⟨i, hai, hi1, ?_⟩
    rw [node_i_eq] at hi2
    rw [TREE_SIZE_eq]
    rw [MAX_LEAVES_eq] at hli
    have := pow_succ 2 D
    omega
  · intro a ha
    rw [RangeTree.sumAccesses] at ha
    obtain ⟨i, hi, hle⟩ := sumLoop_trace D t bound _ _ a ha
    refine ⟨i, hi, ?_⟩
    rw [sumStart] at hle
    rw [TREE_SIZE_eq]
    have hT : (2 : Nat) ^ (D + 1) = 2 ^ D * 2 := pow_succ 2 D
    rw [MAX_LEAVES_eq] at hb hle
    omega

theorem C3_access_bounds_witness :
    0 < MAX_LEAVES 3 ∧ (8 : Int) ≤ (MAX_LEAVES 3 : Int) ∧
    ((∀ a ∈ (RangeTree.init 3 junk0).insertAccesses 3 0 1,
        ∃ i, (a = Access.read i ∨ a = Access.write i) ∧ 1 ≤ i ∧ i < TREE_SIZE 3) ∧
      (∀ a ∈ (RangeTree.init 3 junk0).sumAccesses 3 8,
        ∃ i : Nat, a = Access.read i ∧ i < TREE_SIZE 3)) :=
  ⟨by decide, by decide,
    C3_access_bounds 3 (RangeTree.init 3 junk0) 0 (by decide) 1 8 (by decide)⟩

/-- C5: on every reachable (well-formed) tree state and every bound in
`[1, MAX_LEAVES]`, each iteration of the sum loop either ascends to the
parent with strictly smaller stored level, or steps left on the same level
with strictly smaller `leveli()`, and the loop halts — returning the
accumulated sum — the moment a left-most node (`leveli() = 0`) is
consumed.  Together these give termination of the loop (the model is a
total function for exactly this reason). -/
theorem C5_loop_measure (D : Nat) (junk : Node) (f : Nat → Int) (t : RangeTree)
    (hWF : WF D junk f t) (bound : Int) (hb1 : 1 ≤ bound) (hb2 : bound ≤ (MAX_LEAVES D : Int))
    (n : Nat) (h1 : 1 ≤ n) (h2 : n < TREE_SIZE D) :
    ((((t.get ((n : Int) / 2)).upper_li D : Int) ≤ bound ∧ ((n : Int)) > 1) →
      (t.nodes (n / 2)).level < (t.nodes n).level) ∧
    (¬(((t.get ((n : Int) / 2)).upper_li D : Int) ≤ bound ∧ ((n : Int)) > 1) →
      0 < (t.nodes n).leveli →
      (t.nodes (n - 1)).level = (t.nodes n).level ∧
        (t.nodes (n - 1)).leveli < (t.nodes n).leveli) ∧
    (¬(((t.get ((n : Int) / 2)).upper_li D : Int) ≤ bound ∧ ((n : Int)) > 1) →
      (t.nodes n).leveli = 0 →
      ∀ s : Int, (sumLoop D t bound (n : Int) s).1 = s + (t.nodes n).val) := by
  have h2p : n < 2 ^ (D + 1) := by
    rw [TREE_SIZE_eq] at h2
    exact h2
  refine ⟨?_, ?_, ?_⟩
  · rintro ⟨_, hgt⟩
    have hn2 : (2 : Nat) ≤ n := by exact_mod_cast hgt
    have hq : 1 ≤ n / 2 ∧ n / 2 < TREE_SIZE D := by
      constructor
      · omega
      · rw [TREE_SIZE_eq]
        omega
    rw [hWF (n / 2), if_pos hq, hWF n, if_pos ⟨h1, h2⟩]
    show Nat.log2 (n / 2) < Nat.log2 n
    rw [log2_half hn2]
    omega
  · intro _ hlv
    rw [hWF n, if_pos ⟨h1, h2⟩, wfNode_leveli] at hlv
    have hple := pow_lvl_le h1
    have hone : (1 : Nat) ≤ 2 ^ lvl n := Nat.one_le_two_pow
    have hm1 : 1 ≤ n - 1 ∧ n - 1 < TREE_SIZE D := ⟨by omega, by omega⟩
    have hlv2 : lvl (n - 1) = lvl n := by
      apply lvl_eq_of
      · omega
      · have := lt_pow_lvl n
        omega
    rw [hWF (n - 1), if_pos hm1, hWF n, if_pos ⟨h1, h2⟩]
    constructor
    · show Nat.log2 (n - 1) = Nat.log2 n
      exact hlv2
    · rw [wfNode_leveli, wfNode_leveli]
      show n - 1 - 2 ^ lvl (n - 1) < n - 2 ^ lvl n
      rw [hlv2]
      omega
  · intro hc hlv s
    have hpos : ((n : Int)) > 0 := by exact_mod_cast h1
    have hlev : ¬(t.get ((n : Int))).leveli > 0 := by
      rw [get_natCast]
      omega
    rw [sumLoop_add_break D t bound _ s hpos hc hlev, get_natCast]

theorem C5_loop_measure_witness :
    (1 : Int) ≤ 1 ∧ (1 : Int) ≤ (MAX_LEAVES 1 : Int) ∧ 1 ≤ 1 ∧ 1 < TREE_SIZE 1 ∧
    (((((RangeTree.init 1 junk0).get (((1 : Nat) : Int) / 2)).upper_li 1 : Int) ≤ 1 ∧
        (((1 : Nat) : Int)) > 1 →
      ((RangeTree.init 1 junk0).nodes (1 / 2)).level <
        ((RangeTree.init 1 junk0).nodes 1).level) ∧
    (¬((((RangeTree.init 1 junk0).get (((1 : Nat) : Int) / 2)).upper_li 1 : Int) ≤ 1 ∧
        (((1 : Nat) : Int)) > 1) →
      0 < ((RangeTree.init 1 junk0).nodes 1).leveli →
      ((RangeTree.init 1 junk0).nodes (1 - 1)).level =
          ((RangeTree.init 1 junk0).nodes 1).level ∧
        ((RangeTree.init 1 junk0).nodes (1 - 1)).leveli <
          ((RangeTree.init 1 junk0).nodes 1).leveli) ∧
    (¬((((RangeTree.init 1 junk0).get (((1 : Nat) : Int) / 2)).upper_li 1 : Int) ≤ 1 ∧
        (((1 : Nat) : Int)) > 1) →
      ((RangeTree.init 1 junk0).nodes 1).leveli = 0 →
      ∀ s : Int, (sumLoop 1 (RangeTree.init 1 junk0) 1 ((1 : Nat) : Int) s).1 =
        s + ((RangeTree.init 1 junk0).nodes 1).val)) :=
  ⟨le_refl 1, by decide, le_refl 1, by decide,
    C5_loop_measure 1 junk0 (fun _ => 0) _ (init_WF 1 junk0) 1 (le_refl 1) (by decide)
      1 (le_refl 1) (by decide)⟩

/-- C8: `sum` is a pure read: every node-array access it makes, on any
tree state and for any bound, is a read — the loop body contains no store
to the array.  In this functional model the tree state is therefore
trivially unchanged by `sum`, and two consecutive calls with the same
bound are the same value. -/
theorem C8_sum_pure_read (D : Nat) (t : RangeTree) (bound : Int) :
    ∀ a ∈ t.sumAccesses D bound, ∃ i : Nat, a = Access.read i := by
  intro a ha
  obtain ⟨i, hi, _⟩ := sumLoop_trace D t bound _ _ a ha
  exact ⟨i, hi⟩

theorem C8_sum_pure_read_witness :
    Access.read 0 ∈ (RangeTree.init 16 junk0).sumAccesses 16 (MAX_LEAVES 16 : Int) ∧
    ∃ i : Nat, Access.read 0 = Access.read i :=
  ⟨read_zero_mem_init16,
    C8_sum_pure_read 16 (RangeTree.init 16 junk0) (MAX_LEAVES 16 : Int)
      (Access.read 0) read_zero_mem_init16⟩

end RangeTreeCpp

namespace RangeTreeCpp

/-- C7: on every reachable (well-formed) state, `insert(li, v)` adds `v` to
the `val` of exactly those nodes whose coverage range contains `li` — the
leaf slot `li + MAX_LEAVES` and its iterated halvings up to the root —
leaves every other slot and all level metadata (`level`, `ni`) unchanged,
and the number of updated nodes is exactly `D + 1`. -/
theorem C7_insert_frame (D : Nat) (junk : Node) (f : Nat → Int) (t : RangeTree)
    (hWF : WF D junk f t) (li : Nat) (hli : li < MAX_LEAVES D) (v : Int) :
    (∀ j, 1 ≤ j → j < TREE_SIZE D →
      (((t.nodes j).lower_li D ≤ li ∧ li < (t.nodes j).upper_li D) →
        (t.insert D li v).nodes j =
          ⟨(t.nodes j).level, (t.nodes j).ni, (t.nodes j).val + v⟩) ∧
      (¬((t.nodes j).lower_li D ≤ li ∧ li < (t.nodes j).upper_li D) →
        (t.insert D li v).nodes j = t.nodes j)) ∧
    (∀ j, ¬(1 ≤ j ∧ j < TREE_SIZE D) → (t.insert D li v).nodes j = t.nodes j) ∧
    (∀ j, ((t.insert D li v).nodes j).level = (t.nodes j).level ∧
      ((t.insert D li v).nodes j).ni = (t.nodes j).ni) ∧
    (∀ j, 1 ≤ j → j < TREE_SIZE D →
      (((t.nodes j).lower_li D ≤ li ∧ li < (t.nodes j).upper_li D) ↔
        ∃ k, k ≤ D ∧ j = RangeTree.node_i D li / 2 ^ k)) ∧
    ((Finset.range (TREE_SIZE D)).filter
      (fun j => 1 ≤ j ∧ (t.nodes j).lower_li D ≤ li ∧ li < (t.nodes j).upper_li D)).card =
      D + 1 := by
  have hlip : li < 2 ^ D := by
    rw [MAX_LEAVES_eq] at hli
    exact hli
  have hps : (2 : Nat) ^ (D + 1) = 2 ^ D * 2 := pow_succ 2 D
  have happ : ∀ j, (t.insert D li v).nodes j =
      if j ∈ ancChain (RangeTree.node_i D li) then
        ⟨(t.nodes j).level, (t.nodes j).ni, (t.nodes j).val + v⟩
      else t.nodes j := fun j => insertLoop_fst_apply v (RangeTree.node_i D li) t.nodes j
  have hcov : ∀ j, 1 ≤ j → j < TREE_SIZE D →
      (((t.nodes j).lower_li D ≤ li ∧ li < (t.nodes j).upper_li D) ↔
        (lowerIdx D j ≤ li ∧ li < upperIdx D j)) := by
    intro j h1 h2
    rw [hWF j, if_pos ⟨h1, h2⟩, wfNode_lower_li, wfNode_upper_li]
  have hts : ∀ j : Nat, j < TREE_SIZE D ↔ j < 2 ^ (D + 1) := by
    intro j
    rw [TREE_SIZE_eq]
  have hmem : ∀ j, 1 ≤ j → j < TREE_SIZE D →
      (j ∈ ancChain (RangeTree.node_i D li) ↔
        ((t.nodes j).lower_li D ≤ li ∧ li < (t.nodes j).upper_li D)) := by
    intro j h1 h2
    rw [hcov j h1 h2, node_i_eq]
    exact mem_ancChain_leaf_iff D li j hlip h1 ((hts j).mp h2)
  refine ⟨?_, ?_, ?_, ?_, ?_⟩
  · intro j h1 h2
    constructor
    · intro hc
      rw [happ j, if_pos ((hmem j h1 h2).mpr hc)]
    · intro hc
      rw [happ j, if_neg (fun hm => hc ((hmem j h1 h2).mp hm))]
  · intro j hnr
    rw [happ j]
    apply if_neg
    intro hm
    obtain ⟨hb1, hb2⟩ := mem_ancChain_bounds hm
    rw [node_i_eq] at hb2
    rw [TREE_SIZE_eq] at hnr
    omega
  · intro j
    rw [happ j]
    by_cases hm : j ∈ ancChain (RangeTree.node_i D li)
    · rw [if_pos hm]
      exact ⟨rfl, rfl⟩
    · rw [if_neg hm]
      exact ⟨rfl, rfl⟩
  · intro j h1 h2
    rw [hcov j h1 h2, node_i_eq]
    exact cover_iff_anc D li j hlip h1 ((hts j).mp h2)
  · have hset : (Finset.range (TREE_SIZE D)).filter
        (fun j => 1 ≤ j ∧ (t.nodes j).lower_li D ≤ li ∧ li < (t.nodes j).upper_li D) =
        (Finset.range (D + 1)).image (fun k => (li + 2 ^ D) / 2 ^ k) := by
      ext j
      rw [Finset.mem_filter, Finset.mem_range, Finset.mem_image]
      constructor
      · rintro ⟨hjr, hj1, hc⟩
        have hcv := (hcov j hj1 hjr).mp hc
        obtain ⟨k, hkD, hkeq⟩ :=
          (cover_iff_anc D li j hlip hj1 ((hts j).mp hjr)).mp hcv
        exact ⟨k, Finset.mem_range.mpr (by omega), hkeq.symm⟩
      · rintro ⟨k, hkr, hkeq⟩
        have hkD : k ≤ D := by
          have := Finset.mem_range.mp hkr
          omega
        obtain ⟨hb1, hb2⟩ := div_pow_mem (by omega : 2 ^ D ≤ li + 2 ^ D)
          (by omega : li + 2 ^ D < 2 ^ (D + 1)) hkD
        rw [hkeq] at hb1 hb2
        have hj1 : 1 ≤ j := by
          have h1k : (1 : Nat) ≤ 2 ^ (D - k) := Nat.one_le_two_pow
          omega
        have hjr : j < TREE_SIZE D := by
          rw [TREE_SIZE_eq]
          have hd := Nat.div_le_self (li + 2 ^ D) (2 ^ k)
          omega
        refine ⟨hjr, hj1, (hcov j hj1 hjr).mpr ?_⟩
        exact (cover_iff_anc D li j hlip hj1 ((hts j).mp hjr)).mpr ⟨k, hkD, hkeq.symm⟩
    rw [hset, Finset.card_image_of_injOn, Finset.card_range]
    intro k1 hk1 k2 hk2 heq
    simp only [Finset.coe_range, Set.mem_Iio] at hk1 hk2
    by_contra hne
    have hpos : ∀ k, k ≤ D → 1 ≤ (li + 2 ^ D) / 2 ^ k := by
      intro k hk
      obtain ⟨hb1, _⟩ := div_pow_mem (by omega : 2 ^ D ≤ li + 2 ^ D)
        (by omega : li + 2 ^ D < 2 ^ (D + 1)) hk
      have h1k : (1 : Nat) ≤ 2 ^ (D - k) := Nat.one_le_two_pow
      omega
    simp only at heq
    rcases Nat.lt_or_ge k1 k2 with hlt | hge
    · have := div_pow_lt hlt (hpos k1 (by omega))
      omega
    · have hlt2 : k2 < k1 := by omega
      have := div_pow_lt hlt2 (hpos k2 (by omega))
      omega

theorem C7_insert_frame_witness :
    1 < MAX_LEAVES 2 ∧
    ((Finset.range (TREE_SIZE 2)).filter
      (fun j => 1 ≤ j ∧ ((RangeTree.init 2 junk0).nodes j).lower_li 2 ≤ 1 ∧
        1 < ((RangeTree.init 2 junk0).nodes j).upper_li 2)).card = 2 + 1 :=
  ⟨by decide,
    (C7_insert_frame 2 junk0 (fun _ => 0) _ (init_WF 2 junk0) 1 (by decide) 5).2.2.2.2⟩

end RangeTreeCpp
